import Mathlib

/-!
Shallow embedding of the heterogeneous-record normalization and fixed-layout
compilation engine of `ptsa/data/readers/base.py` (class `BaseEventReader`),
together with theorems settling the frozen claims about it.

Modelling conventions:
* Python values are the inductive `PyVal`; Python `dict`s are ordered
  association lists (insertion order), matching Python 3 dict semantics.
* Fallible Python code is modelled in `Except PyErr`.
* Host-library behaviour that the source calls out to is abstracted:
  `unicodedata.normalize`/`unicodedata.category` become the `Host` record of
  functions, numpy scalar-assignment coercion becomes `castScalar`, and
  `np.zeros` becomes `zeroCell`/`zeroSlot`.
* Recursive traversals of `PyVal` carry an explicit recursion budget (`fuel`),
  modelling Python's bounded recursion depth (`RecursionError` beyond it).
  All definitions are structurally recursive, hence executable and
  kernel-reducible on concrete inputs.
-/

namespace Ptsa

/-- Python exceptions (and model bookkeeping) that the embedded code can raise. -/
inductive PyErr where
  | indexError
  | keyError
  | typeError
  | attributeError
  | valueError
  | overflowError
  /-- the `raise Exception('Could not convert type %s' ...)` in `get_element_dtype` -/
  | couldNotConvertType
  /-- the `raise NotImplementedError('Reref from JSON not implemented')` -/
  | notImplementedError
  /-- Python's recursion-depth limit (the model's fuel) was exhausted -/
  | recursionError
  /-- model bookkeeping for situations unreachable from the embedded code paths -/
  | internalError
  deriving DecidableEq, Repr

/-- A Python float: either NaN or a (rational-modelled) finite value.  The
source only distinguishes NaN from non-NaN values, so infinities are not
modelled separately. -/
inductive PFloat where
  | nan
  | val (q : ℚ)
  deriving DecidableEq, Repr

/-- A deserialized Python value, as produced by `json.load`:  scalars, nested
dicts (ordered field lists) and lists. `pyNone` stands for `None`. -/
inductive PyVal where
  | int (n : ℤ)
  | boolVal (b : Bool)
  | float (x : PFloat)
  | str (s : String)
  | bytes (s : String)
  | dict (fields : List (String × PyVal))
  | list (xs : List PyVal)
  | pyNone

/-- A numpy field dtype as produced by `get_element_dtype`/`mkdtype`:
`'int64'`, `'float64'`, `'S256'`, `'U256'`, `'b'`, or a structured dtype. -/
inductive Dtype where
  | int64
  | float64
  | S256
  | U256
  /-- the `'b'` returned by the (unreachable) bool branch of `get_element_dtype` -/
  | boolChar
  | sub (fields : List (String × Dtype))

/-- `isinstance(v, dict)` -/
def PyVal.isDict : PyVal → Bool
  | .dict _ => true
  | _ => false

/-- `isinstance(v, list)` -/
def PyVal.isList : PyVal → Bool
  | .list _ => true
  | _ => false

/-- `v.items()`: the ordered field list of a dict; `AttributeError` otherwise. -/
def PyVal.items : PyVal → Except PyErr (List (String × PyVal))
  | .dict fields => .ok fields
  | _ => .error .attributeError

/-- Ordered-dict lookup: the value at the first (unique, for a Python dict)
occurrence of the key. -/
def assocFind (k : String) : List (String × PyVal) → Option PyVal
  | [] => none
  | kv :: rest => if kv.1 = k then some kv.2 else assocFind k rest

/-- `v[k]` for a string key `k`: dict lookup (`KeyError` when absent);
indexing anything else with a string is a `TypeError`. -/
def PyVal.getItem : PyVal → String → Except PyErr PyVal
  | .dict fields, k =>
      match assocFind k fields with
      | some v => .ok v
      | none => .error .keyError
  | _, _ => .error .typeError

/-- Iterating a Python value: lists yield their elements, strings their
characters (as 1-character strings), bytes their byte values, dicts their
keys; other values are not iterable (`TypeError`). -/
def PyVal.pyIter : PyVal → Except PyErr (List PyVal)
  | .list xs => .ok xs
  | .str s => .ok (s.toList.map fun c => .str (String.mk [c]))
  | .bytes s => .ok (s.toList.map fun c => .int c.toNat)
  | .dict fields => .ok (fields.map fun kv => .str kv.1)
  | _ => .error .typeError

/-- `len(v)`, defined on exactly the iterable values. -/
def PyVal.pyLen (v : PyVal) : Except PyErr Nat :=
  (·.length) <$> v.pyIter

/-- `v[0]`: first element of a list / first character of a string; on a dict
this is a lookup of the key `0`, hence `KeyError`; `IndexError` when empty. -/
def PyVal.pyGet0 : PyVal → Except PyErr PyVal
  | .dict _ => .error .keyError
  | v =>
      match v.pyIter with
      | .ok (x :: _) => .ok x
      | .ok [] => .error .indexError
      | .error e => .error e

/-- Helper for the classifier: maps `get_element_dtype` over a dict's values,
keeping the key order — the loop body of `mkdtype` on a dict. -/
def classifyFields (ge : PyVal → Except PyErr Dtype) :
    List (String × PyVal) → Except PyErr (List (String × Dtype))
  | [] => .ok []
  | (k, v) :: rest => do
      let t ← ge v
      let ts ← classifyFields ge rest
      .ok ((k, t) :: ts)

/-- `BaseEventReader.get_element_dtype`.  The source tests, in order:
`dict`, `int`, `binary_type`, `text_type`, `bool`, `float`, `list`.  Python's
`bool` is a subclass of `int`, so `isinstance(element, int)` is true for
booleans and the later `isinstance(element, bool) → 'b'` branch is
unreachable: booleans classify as `'int64'`.  The dict branch calls
`mkdtype`, whose behaviour on a dict is inlined here (iterate the items);
a list recurses on its first element (`IndexError` when empty); anything
else raises (`Exception('Could not convert type ...')`). -/
def get_element_dtype : Nat → PyVal → Except PyErr Dtype
  | 0, _ => .error .recursionError
  | fuel + 1, v =>
      match v with
      | .dict fields => Dtype.sub <$> classifyFields (get_element_dtype fuel) fields
      | .int _ => .ok .int64
      | .boolVal _ => .ok .int64
      | .bytes _ => .ok .S256
      | .str _ => .ok .U256
      | .float _ => .ok .float64
      | .list (x :: _) => get_element_dtype fuel x
      | .list [] => .error .indexError
      | .pyNone => .error .couldNotConvertType

/-- `BaseEventReader.mkdtype`: unwrap a (non-empty) list to its first
element, then build the structured dtype from a dict's items in key order;
calling it on a non-dict non-list value fails (`.items()` is missing). -/
def mkdtype : Nat → PyVal → Except PyErr Dtype
  | 0, _ => .error .recursionError
  | fuel + 1, d =>
      match d with
      | .list (x :: _) => mkdtype fuel x
      | .list [] => .error .indexError
      | .dict fields => Dtype.sub <$> classifyFields (get_element_dtype fuel) fields
      | _ => .error .attributeError

/-- One stored value inside the compiled array: a scalar cell, a nested
sub-record (cells aligned with the structured dtype's field list), or the
contents of a fixed-capacity subarray field. -/
inductive Cell where
  | int (n : ℤ)
  | float (x : PFloat)
  | str (s : String)
  | sub (cells : List Cell)
  | arr (cells : List Cell)

/-- One entry of the dtype list built in `from_dict`: either a plain
`(name, dtype)` field or a `(name, dtype, length)` fixed-capacity array
field. -/
inductive FieldSpec where
  | scalar (ty : Dtype)
  | array (ty : Dtype) (cap : Nat)

/-- The ordered field layout of the compiled array (`dtypes` in
`from_dict`). -/
abbrev Schema := List (String × FieldSpec)

/-- One slot (record) of the compiled array: cells positionally aligned with
the schema. -/
abbrev Slot := List Cell

/-- The compiled array: its dtype together with its slots
(`np.rec.array(np.zeros(len(d), dtypes))` once populated). -/
structure StructArr where
  fields : Schema
  slots : List Slot

/-- U256/S256 storage truncates text to 256 code points (documented
limitation of the fixed 256-capacity text dtype). -/
def strTrunc (s : String) : String :=
  String.mk (s.toList.take 256)

/-- numpy scalar assignment `array_cell = v`, coercing the Python value to
the field's dtype.  Only the conversions the embedded code can actually
perform are given; combinations that numpy would reject (or that are
unreachable from `from_dict`, such as assigning into the dead `'b'` dtype)
are modelled as failures. -/
def castScalar (ty : Dtype) (v : PyVal) : Except PyErr Cell :=
  match ty, v with
  | .int64, .int n =>
      -- numpy int64 assignment overflows on out-of-range Python ints
      if -(2 ^ 63 : ℤ) ≤ n ∧ n < 2 ^ 63 then .ok (.int n) else .error .overflowError
  | .int64, .boolVal b => .ok (.int (if b then 1 else 0))
  | .int64, .float (.val q) =>
      -- C-style cast: truncation toward zero
      .ok (.int (if 0 ≤ q then ⌊q⌋ else ⌈q⌉))
  | .int64, .float .nan => .error .valueError
  | .float64, .int n => .ok (.float (.val n))
  | .float64, .boolVal b => .ok (.float (.val (if b then 1 else 0)))
  | .float64, .float x => .ok (.float x)
  | .float64, .pyNone => .ok (.float .nan)  -- numpy stores None as NaN in a float field
  | .S256, .str s => .ok (.str (strTrunc s))
  | .S256, .bytes s => .ok (.str (strTrunc s))
  | .U256, .str s => .ok (.str (strTrunc s))
  | .U256, .bytes s => .ok (.str (strTrunc s))
  | _, _ => .error .typeError

/-- Helper for `zeroCell` on structured dtypes: zero cells of each field, in
order. -/
def zeroFields (zc : Dtype → Except PyErr Cell) :
    List (String × Dtype) → Except PyErr (List Cell)
  | [] => .ok []
  | (_, t) :: rest => do
      let c ← zc t
      let cs ← zeroFields zc rest
      .ok (c :: cs)

/-- The zero value `np.zeros` puts in one cell of the given dtype. -/
def zeroCell : Nat → Dtype → Except PyErr Cell
  | 0, _ => .error .recursionError
  | fuel + 1, ty =>
      match ty with
      | .int64 => .ok (.int 0)
      | .float64 => .ok (.float (.val 0))
      | .S256 => .ok (.str "")
      | .U256 => .ok (.str "")
      | .boolChar => .ok (.int 0)
      | .sub fields => Cell.sub <$> zeroFields (zeroCell fuel) fields

/-- The zero value of one schema field: a zero scalar, or a subarray holding
`cap` zero elements. -/
def zeroField (fuel : Nat) : FieldSpec → Except PyErr Cell
  | .scalar ty => zeroCell fuel ty
  | .array ty cap => (fun z => Cell.arr (List.replicate cap z)) <$> zeroCell fuel ty

/-- The zero element `np.zeros` uses for one cell of a non-structured
dtype (used to state what padding a subarray field holds). -/
def zeroScalar : Dtype → Option Cell
  | .int64 => some (.int 0)
  | .float64 => some (.float (.val 0))
  | .S256 => some (.str "")
  | .U256 => some (.str "")
  | .boolChar => some (.int 0)
  | .sub _ => none

/-- One all-zero slot shaped by the schema (`np.zeros(len(d), dtypes)` builds
`len(d)` copies of this). -/
def zeroSlot (fuel : Nat) : Schema → Except PyErr Slot
  | [] => .ok []
  | (_, spec) :: rest => do
      let c ← zeroField fuel spec
      let cs ← zeroSlot fuel rest
      .ok (c :: cs)

/-- The host functions the source delegates to `unicodedata`:
`normalize('NFD', s)` (None modelling a `UnicodeError`) and the
`category(c) == 'Mn'` test. -/
structure Host where
  nfd : String → Option String
  isMn : Char → Bool

/-- The character class `[A-Za-z0-9 -_.]` of the fallback
`re.sub(r'[^A-Za-z0-9 -_.]', '', s)`.  Note that ` -_` is a character
RANGE from space (U+0020) to underscore (U+005F), not the three literal
characters: the class keeps `A-Z`, `a-z`, `0-9`, every character from
space to underscore, and `.`. -/
def fallbackKeep (c : Char) : Bool :=
  ('A' ≤ c && c ≤ 'Z') || ('a' ≤ c && c ≤ 'z') || ('0' ≤ c && c ≤ '9') ||
    (' ' ≤ c && c ≤ '_') || c == '.'

/-- The `except UnicodeError` fallback of `strip_accents`:
`re.sub(r'[^A-Za-z0-9 -_.]', '', s)` deletes exactly the characters outside
the class. -/
def stripAccentsFallback (s : String) : String :=
  String.mk (s.toList.filter fallbackKeep)

/-- `BaseEventReader.strip_accents`: NFD-normalize and drop combining marks
(category `Mn`); when normalization raises a `UnicodeError`, fall back to
the character filter. -/
def strip_accents (h : Host) (s : String) : String :=
  match h.nfd s with
  | some t => String.mk (t.toList.filter fun c => !h.isMn c)
  | none => stripAccentsFallback s

/-- The running per-field record of the capacity resolver
(`defaultdict(lambda *_: {'len': 0, 'dtype': None})`). -/
structure LInfo where
  len : Nat
  dtype : Option Dtype

/-- `list_info` as an ordered map keyed by the list-valued field names. -/
abbrev LIMap := List (String × LInfo)

/-- `list_info[k]` lookup. -/
def liFind (k : String) : LIMap → Option LInfo
  | [] => none
  | kv :: rest => if kv.1 = k then some kv.2 else liFind k rest

/-- `k in dict_fields or list_info and k in list_info` membership part:
with `list_info` None (or empty, both falsy) the membership test is not
taken. -/
def liContains : Option LIMap → String → Bool
  | none, _ => false
  | some m, k => (liFind k m).isSome

/-- The body of the capacity-resolver loop for one entry and one list field
`k` (lines 306–311): update the running maximum of `len(entry[k])`, and
resolve the element dtype from the first non-empty occurrence —
`mkdtype(entry[k][0])` for dict elements, else
`get_element_dtype(entry[k])`. -/
def updateLInfo (fuel : Nat) (entry : PyVal) (k : String) (info : LInfo) :
    Except PyErr LInfo := do
  let v ← entry.getItem k
  let l ← v.pyLen
  let len1 := max info.len l
  if info.dtype.isNone ∧ 0 < l then do
    let x0 ← v.pyGet0
    let dt ← if x0.isDict then mkdtype fuel x0 else get_element_dtype fuel v
    .ok ⟨len1, some dt⟩
  else
    .ok ⟨len1, info.dtype⟩

/-- The inner `for k in list_names` loop of the capacity resolver, walking
the map in key order. -/
def updateEntry (fuel : Nat) (entry : PyVal) : LIMap → Except PyErr LIMap
  | [] => .ok []
  | (k, info) :: rest => do
      let info1 ← updateLInfo fuel entry k info
      let rest1 ← updateEntry fuel entry rest
      .ok ((k, info1) :: rest1)

/-- The outer `for entry in d` loop of the capacity resolver.  The
defaultdict materializes each key of `list_names` on first access while the
first entry is processed; initializing all keys with `{'len': 0, 'dtype':
None}` up front (see `from_dict`) yields the same map. -/
def computeListInfo (fuel : Nat) : List PyVal → LIMap → Except PyErr LIMap
  | [], li => .ok li
  | entry :: rest, li => do
      let li1 ← updateEntry fuel entry li
      computeListInfo fuel rest li1

/-- The dtype-list construction of `from_dict` (lines 313–318): walk the
first record's items in order; fields not in `list_info` get their scalar
dtype from `get_element_dtype`, list fields get
`(name, list_info[k]['dtype'], list_info[k]['len'])`.  A still-unresolved
element dtype (`None`, every occurrence empty) is what `np.zeros` receives,
and `np.dtype(None)` is float64. -/
def specFor (fuel : Nat) (li : LIMap) (k : String) (v : PyVal) : Except PyErr FieldSpec :=
  match liFind k li with
  | none => (fun t => FieldSpec.scalar t) <$> get_element_dtype fuel v
  | some info => .ok (FieldSpec.array (info.dtype.getD .float64) info.len)

def mkDtypes (fuel : Nat) (li : LIMap) : List (String × PyVal) → Except PyErr Schema
  | [] => .ok []
  | (k, v) :: rest => do
      let spec ← specFor fuel li k v
      let rest1 ← mkDtypes fuel li rest
      .ok ((k, spec) :: rest1)

/-- Index of the field named `k` in the schema (numpy resolves field names
to positions; `none` models the `KeyError` for an unknown field). -/
def lookupIdx (k : String) : Schema → Option Nat
  | [] => none
  | kv :: rest => if kv.1 = k then some 0 else (lookupIdx k rest).map (· + 1)

/-- The dtype entry at a schema position. -/
def schemaSpec (schema : Schema) (idx : Nat) : Option FieldSpec :=
  (schema[idx]?).map (·.2)

/-- Replace the element at a position of a list; out of bounds is an
`IndexError`. -/
def listSet : List α → Nat → α → Except PyErr (List α)
  | [], _, _ => .error .indexError
  | _ :: t, 0, a => .ok (a :: t)
  | h :: t, n + 1, a => (h :: ·) <$> listSet t n a

/-- Read the cell of slot `i`, field position `idx`. -/
def cellAt (slots : List Slot) (i idx : Nat) : Option Cell :=
  (slots[i]?).bind (·[idx]?)

/-- Write one cell of the compiled array (`rec_arr[i][k] = ...` once the
field name is resolved to a position). -/
def setCell (slots : List Slot) (i idx : Nat) (c : Cell) : Except PyErr (List Slot) :=
  match slots[i]? with
  | none => .error .indexError
  | some slot => do
      let slot1 ← listSet slot idx c
      listSet slots i slot1

/-- A structured dtype's field list viewed as a schema (no subarray entries:
`mkdtype` never produces them). -/
def subSchema (sf : List (String × Dtype)) : Schema :=
  sf.map (fun kv => (kv.1, FieldSpec.scalar kv.2))

/-- `rec_arr[i][k] = v` for a scalar Python value: resolve the field, coerce
`v` to its dtype and store it.  Assigning a scalar into a subarray field
would broadcast in numpy; that combination is unreachable from `from_dict`
(subarray fields are exactly the `list_info` keys, skipped in the scalar
pass) and is modelled as a failure. -/
def writeScalar (schema : Schema) (slots : List Slot) (i : Nat) (k : String)
    (v : PyVal) : Except PyErr (List Slot) :=
  match lookupIdx k schema with
  | none => .error .keyError
  | some idx =>
      match schemaSpec schema idx with
      | some (.scalar ty) => do
          let c ← castScalar ty v
          setCell slots i idx c
      | some (.array _ _) => .error .typeError
      | none => .error .internalError

/-- The columns gathered for dict-valued fields of the first record
(`dict_fields[k] = [inner_dict[k] for inner_dict in dict_list]`); a record
missing the key raises `KeyError`. -/
def getColumnVals (k : String) : List PyVal → Except PyErr (List PyVal)
  | [] => .ok []
  | r :: rest => do
      let v ← r.getItem k
      let vs ← getColumnVals k rest
      .ok (v :: vs)

/-- Build `dict_fields` by walking the first record's items in order and
keeping the dict-valued ones with their gathered columns. -/
def mkDictFields (dict_list : List PyVal) :
    List (String × PyVal) → Except PyErr (List (String × List PyVal))
  | [] => .ok []
  | (k, v) :: rest =>
      if v.isDict then do
        let col ← getColumnVals k dict_list
        let fs ← mkDictFields dict_list rest
        .ok ((k, col) :: fs)
      else
        mkDictFields dict_list rest

/-- `for j, element in enumerate(v): arr[j] = element`: positional scalar
copy into the zero buffer, coercing each element to the buffer's dtype. -/
def fillArr (ty : Dtype) : Nat → List PyVal → List Cell → Except PyErr (List Cell)
  | _, [], arr => .ok arr
  | j, e :: rest, arr => do
      let c ← castScalar ty e
      let arr1 ← listSet arr j c
      fillArr ty (j + 1) rest arr1

/-- Extract the cells of a freshly zeroed structured buffer as slots (each
cell is a `.sub` by construction). -/
def cellsToSlots : List Cell → Except PyErr (List Slot)
  | [] => .ok []
  | .sub cs :: rest => do
      let ss ← cellsToSlots rest
      .ok (cs :: ss)
  | _ :: _ => .error .internalError

/-- The type of the recursive `copy_values` callback threaded through the
per-pass helpers. -/
abbrev Copier := List PyVal → Schema → List Slot → Option LIMap → Except PyErr (List Slot)

/-- One `(k, v)` step of the first `copy_values` loop (lines 337–347):
skip `dict_fields` members and (at the top level) `list_info` members; a
dict value recurses into the sub-record cell (`copy_values([v],
rec_arr[i][k])`); a text value is accent-stripped before assignment; any
other value is assigned directly. -/
def pass1Item (cv : Copier) (h : Host) (schema : Schema) (dfKeys : List String)
    (li : Option LIMap) (i : Nat) (k : String) (v : PyVal) (slots : List Slot) :
    Except PyErr (List Slot) :=
  if dfKeys.contains k || liContains li k then .ok slots
  else
    match v with
    | .dict _ =>
        match lookupIdx k schema with
        | none => .error .keyError
        | some idx =>
            match schemaSpec schema idx, cellAt slots i idx with
            | some (.scalar (.sub sf)), some (.sub cs) => do
                let res ← cv [v] (subSchema sf) [cs] none
                match res with
                | [cs1] => setCell slots i idx (.sub cs1)
                | _ => .error .internalError
            | _, _ =>
                -- the target cell is a numpy scalar: item assignment inside
                -- the recursive call fails
                .error .typeError
    | .str s => writeScalar schema slots i k (.str (strip_accents h s))
    | _ => writeScalar schema slots i k v

/-- The inner item loop of pass 1 for one record. -/
def pass1Items (cv : Copier) (h : Host) (schema : Schema) (dfKeys : List String)
    (li : Option LIMap) (i : Nat) :
    List (String × PyVal) → List Slot → Except PyErr (List Slot)
  | [], slots => .ok slots
  | (k, v) :: rest, slots => do
      let slots1 ← pass1Item cv h schema dfKeys li i k v slots
      pass1Items cv h schema dfKeys li i rest slots1

/-- The outer `for i, sub_dict in enumerate(dict_list)` loop of pass 1;
`sub_dict.items()` fails on a non-dict record. -/
def pass1 (cv : Copier) (h : Host) (schema : Schema) (dfKeys : List String)
    (li : Option LIMap) : Nat → List PyVal → List Slot → Except PyErr (List Slot)
  | _, [], slots => .ok slots
  | i, r :: rest, slots => do
      let items ← r.items
      let slots1 ← pass1Items cv h schema dfKeys li i items slots
      pass1 cv h schema dfKeys li (i + 1) rest slots1

/-- `rec_arr[i][k] = np.rec.array(arr)` for a subarray field. -/
def writeArrCell (schema : Schema) (slots : List Slot) (i : Nat) (k : String)
    (cells : List Cell) : Except PyErr (List Slot) :=
  match lookupIdx k schema with
  | none => .error .keyError
  | some idx =>
      match schemaSpec schema idx with
      | some (.array _ _) => setCell slots i idx (.arr cells)
      | _ => .error .typeError

/-- Filling the per-slot zero buffer of a list field (`if len(v) > 0:` of
lines 353–358): dict elements recurse the copier over just those elements,
scalar elements are copied positionally; an empty source leaves the buffer
all zero. -/
def pass2Buffer (cv : Copier) (ty : Dtype) (arr0 : List Cell) :
    List PyVal → Except PyErr (List Cell)
  | [] => .ok arr0
  | e0 :: tl =>
      if e0.isDict then
        match ty with
        | .sub sf => do
            let sl0 ← cellsToSlots arr0
            let sl1 ← cv (e0 :: tl) (subSchema sf) sl0 none
            .ok (sl1.map Cell.sub)
        | _ =>
            -- copying record elements into a non-structured buffer fails
            -- inside the recursive call
            .error .typeError
      else
        fillArr ty 0 (e0 :: tl) arr0

/-- One `(k, v)` step of the second `copy_values` loop (lines 349–360), for
`k` in `list_info`: allocate `np.zeros(list_info[k]['len'],
list_info[k]['dtype'])`, fill it, and store it; positions past `len(v)`
stay zero. -/
def pass2Item (cv : Copier) (fuel : Nat) (schema : Schema) (li : Option LIMap)
    (i : Nat) (k : String) (v : PyVal) (slots : List Slot) :
    Except PyErr (List Slot) :=
  match li with
  | none => .ok slots
  | some m =>
      match liFind k m with
      | none => .ok slots
      | some info => do
          let ty := (info.dtype).getD .float64
          let z ← zeroCell fuel ty
          let elems ← v.pyIter
          let arr1 ← pass2Buffer cv ty (List.replicate info.len z) elems
          writeArrCell schema slots i k arr1

/-- The inner item loop of pass 2 for one record. -/
def pass2Items (cv : Copier) (fuel : Nat) (schema : Schema) (li : Option LIMap)
    (i : Nat) : List (String × PyVal) → List Slot → Except PyErr (List Slot)
  | [], slots => .ok slots
  | (k, v) :: rest, slots => do
      let slots1 ← pass2Item cv fuel schema li i k v slots
      pass2Items cv fuel schema li i rest slots1

/-- The outer record loop of pass 2. -/
def pass2 (cv : Copier) (fuel : Nat) (schema : Schema) (li : Option LIMap) :
    Nat → List PyVal → List Slot → Except PyErr (List Slot)
  | _, [], slots => .ok slots
  | i, r :: rest, slots => do
      let items ← r.items
      let slots1 ← pass2Items cv fuel schema li i items slots
      pass2 cv fuel schema li (i + 1) rest slots1

/-- The sub-record column `rec_arr[k]` of pass 3: the `.sub` cells at one
field position across all slots (by construction every slot holds a `.sub`
there). -/
def getColumn : List Slot → Nat → Except PyErr (List Slot)
  | [], _ => .ok []
  | slot :: rest, idx =>
      match slot[idx]? with
      | some (.sub cs) => do
          let ss ← getColumn rest idx
          .ok (cs :: ss)
      | _ => .error .internalError

/-- Write the recursively populated column back (numpy mutates the column
view in place; the recursive call keeps the column length, so the length
mismatch case is unreachable). -/
def putColumn : List Slot → Nat → List Slot → Except PyErr (List Slot)
  | [], _, [] => .ok []
  | slot :: rest, idx, cs :: csr => do
      let slot1 ← listSet slot idx (.sub cs)
      let rest1 ← putColumn rest idx csr
      .ok (slot1 :: rest1)
  | _, _, _ => .error .internalError

/-- One field of the third `copy_values` loop (lines 362–363):
`copy_values(v, rec_arr[k])` populates the whole sub-record column in one
recursive call. -/
def pass3Field (cv : Copier) (schema : Schema) (k : String) (col : List PyVal)
    (slots : List Slot) : Except PyErr (List Slot) :=
  match lookupIdx k schema with
  | none => .error .keyError
  | some idx =>
      match schemaSpec schema idx with
      | some (.scalar (.sub sf)) => do
          let subCol ← getColumn slots idx
          let newCol ← cv col (subSchema sf) subCol none
          putColumn slots idx newCol
      | _ => .error .typeError

/-- The `for k, v in dict_fields.items()` loop of pass 3, in the insertion
order of `dict_fields`. -/
def pass3Fields (cv : Copier) (schema : Schema) :
    List (String × List PyVal) → List Slot → Except PyErr (List Slot)
  | [], slots => .ok slots
  | (k, col) :: rest, slots => do
      let slots1 ← pass3Field cv schema k col slots
      pass3Fields cv schema rest slots1

/-- `BaseEventReader.copy_values` (lines 327–363).  An empty `dict_list`
returns without touching the array.  Otherwise: gather `dict_fields` from
the first record, then run the scalar pass, the list-field pass and the
columnar sub-record pass.  Elements of `dict_list` are arbitrary Python
values; a non-dict record fails at its `.items()` call (here checked when
the record's items are first needed). -/
def copy_values (h : Host) : Nat → Copier
  | 0, _, _, _, _ => .error .recursionError
  | fuel + 1, dict_list, schema, slots, li =>
      match dict_list with
      | [] => .ok slots
      | first :: _ => do
          let firstItems ← first.items
          let dict_fields ← mkDictFields dict_list firstItems
          let dfKeys := dict_fields.map (·.1)
          let slots1 ← pass1 (copy_values h fuel) h schema dfKeys li 0 dict_list slots
          let slots2 ← pass2 (copy_values h fuel) fuel schema li 0 dict_list slots1
          pass3Fields (copy_values h fuel) schema dict_fields slots2

/-- `BaseEventReader.from_dict` (lines 291–325): wrap a non-list argument in
a singleton batch; read the first record's items (`IndexError` on an empty
batch); collect `list_names`; resolve capacities and element dtypes over
the whole batch; build the dtype list from the first record's key order;
then either return `np.array([])` (no fields) or allocate
`np.zeros(len(d), dtypes)` and populate it with `copy_values`. -/
def from_dict (h : Host) (fuel : Nat) (d : PyVal) : Except PyErr StructArr :=
  let dlist := match d with | .list xs => xs | v => [v]
  match dlist with
  | [] => .error .indexError
  | first :: _ => do
      let firstItems ← first.items
      let list_names := (firstItems.filter (fun kv => kv.2.isList)).map (·.1)
      let li0 : LIMap := list_names.map (fun k => (k, ⟨0, none⟩))
      let li ← computeListInfo fuel dlist li0
      let dtypes ← mkDtypes fuel li firstItems
      if dtypes.isEmpty then
        .ok ⟨[], []⟩
      else do
        let z ← zeroSlot fuel dtypes
        let slots0 := List.replicate dlist.length z
        let slots ← copy_values h fuel dlist dtypes slots0 (some li)
        .ok ⟨dtypes, slots⟩

/-- NaN-replacement for one cell: `evs[field_name][nan_selector] =
replacement_val` replaces exactly the NaN elements. -/
def sanitizeCell (rv : ℤ) : Cell → Cell
  | .float .nan => .float (.val rv)
  | c => c

/-- The per-field `try: np.isnan(...) ... except TypeError: pass` body of
`replace_nans`.  `np.isnan` is defined on numeric dtypes — on a float64
field/subarray it selects the NaNs (which get the sentinel), on an int64
field it selects nothing — and raises `TypeError` on string and structured
dtypes, in which case the field is skipped unchanged. -/
def sanitizeField (rv : ℤ) : FieldSpec → Cell → Cell
  | .scalar .float64, c => sanitizeCell rv c
  | .array .float64 _, .arr cs => .arr (cs.map (sanitizeCell rv))
  | _, c => c

/-- One slot of `replace_nans`: each field handled per its dtype. -/
def sanitizeSlot (rv : ℤ) : Schema → Slot → Slot
  | (_, spec) :: fr, c :: cr => sanitizeField rv spec c :: sanitizeSlot rv fr cr
  | _, cs => cs

/-- `BaseEventReader.replace_nans` (lines 219–229): walk `evs.dtype.descr`
field by field, replacing NaNs with the replacement value (default `-999`),
skipping the fields on which the NaN check raises `TypeError`. -/
def replace_nans (evs : StructArr) (replacement_val : ℤ) : StructArr :=
  ⟨evs.fields, evs.slots.map (sanitizeSlot replacement_val evs.fields)⟩

/-- The reader configuration recognized by `BaseEventReader.__init__`. -/
structure ReaderConfig where
  filename : String
  common_root : String
  eliminate_events_with_no_eeg : Bool
  eliminate_nans : Bool
  use_reref_eeg : Bool
  normalize_eeg_path : Bool

/-- `BaseEventReader.check_reader_settings_for_json_read` (lines 143–146):
reading re-referenced EEG from JSON is not implemented. -/
def check_reader_settings_for_json_read (cfg : ReaderConfig) : Except PyErr Unit :=
  if cfg.use_reref_eeg then .error .notImplementedError else .ok ()

/-- `str(value)` of one stored cell, as used by the no-EEG filter.  The
host `str()` representation of non-text cells is abstracted to a simple
rendering; the filter only compares its length with 3. -/
def cellPyStr : Cell → String
  | .str s => s
  | .int n => toString n
  | .float .nan => "nan"
  | .float (.val q) => toString q
  | .sub _ => "record"
  | .arr _ => "array"

/-- One slot of the no-EEG filter: `len(str(evs[i].eegfile)) > 3`. -/
def slotKeep (idx : Nat) (slot : Slot) : Except PyErr Bool :=
  match slot[idx]? with
  | some c => .ok (decide (3 < (cellPyStr c).length))
  | none => .error .internalError

/-- `evs = evs[indicator]`: keep the slots whose indicator is true. -/
def filterSlots (idx : Nat) : List Slot → Except PyErr (List Slot)
  | [] => .ok []
  | slot :: rest => do
      let keep ← slotKeep idx slot
      let rest1 ← filterSlots idx rest
      .ok (if keep then slot :: rest1 else rest1)

/-- The `eliminate_events_with_no_eeg` block of `read_json` (lines
154–163): drop the events whose `eegfile` renders to at most 3 characters;
the attribute access `evs[i].eegfile` fails when the field is absent. -/
def eliminateNoEeg (evs : StructArr) : Except PyErr StructArr :=
  match lookupIdx "eegfile" evs.fields with
  | none => .error .attributeError
  | some idx => do
      let slots1 ← filterSlots idx evs.slots
      .ok ⟨evs.fields, slots1⟩

/-- Simplified model of `os.path.dirname`: everything before the last
separator. -/
def osDirname (s : String) : String :=
  String.mk (((s.toList.reverse.dropWhile (· ≠ '/')).drop 1).reverse)

/-- Simplified model of `os.path.join` for two components: an absolute tail
discards the head. -/
def osJoin (a b : String) : String :=
  if b.startsWith "/" then b else a ++ "/" ++ b

/-- Resolve `..` components (simplified `os.path.abspath` on an
already-absolute path). -/
def resolveUp (acc : List String) : List String → List String
  | [] => acc.reverse
  | ".." :: rest => resolveUp (acc.drop 1) rest
  | p :: rest => resolveUp (p :: acc) rest

/-- The `eeg_dir` computed in `read_json` (lines 166–167):
`abspath(join(dirname(filename), '..', '..', 'ephys', 'current_processed',
'noreref'))`, modelled by splicing the relative components onto the
filename's directory and resolving the `..`s. -/
def eegDirOf (filename : String) : String :=
  let parts := ((osDirname filename).split (· = '/')).filter (· ≠ "")
  let rel := ["..", "..", "ephys", "current_processed", "noreref"]
  "/" ++ String.intercalate "/" (resolveUp [] (parts ++ rel))

/-- `ev.eegfile = os.path.join(eeg_dir, ev.eegfile)` over all slots (the
stored text is still bounded by the 256-character field capacity). -/
def prefixEegfile (dir : String) (idx : Nat) : List Slot → Except PyErr (List Slot)
  | [] => .ok []
  | slot :: rest => do
      let c ←
        match slot[idx]? with
        | some c => .ok (Cell.str (strTrunc (osJoin dir (cellPyStr c))))
        | none => .error .internalError
      let slot1 ← listSet slot idx c
      let rest1 ← prefixEegfile dir idx rest
      .ok (slot1 :: rest1)

/-- `BaseEventReader.read_json` (lines 148–171): check the reader settings
first (so a reref request fails before anything is read), deserialize and
compile the events (`from_json` = `json.load` + `from_dict`; the
deserialized file contents are the `contents` argument), optionally drop
the no-EEG events, and prefix each `eegfile` with the derived directory
when the field exists. -/
def read_json (h : Host) (cfg : ReaderConfig) (fuel : Nat) (contents : PyVal) :
    Except PyErr StructArr := do
  check_reader_settings_for_json_read cfg
  let evs ← from_dict h fuel contents
  let evs ←
    if cfg.eliminate_events_with_no_eeg then eliminateNoEeg evs else .ok evs
  match lookupIdx "eegfile" evs.fields with
  | none => .ok evs
  | some idx => do
      let slots1 ← prefixEegfile (eegDirOf cfg.filename) idx evs.slots
      .ok ⟨evs.fields, slots1⟩

/-- The dtype entry of the field named `k` of a compiled array. -/
def fieldSpecOf (a : StructArr) (k : String) : Option FieldSpec :=
  (lookupIdx k a.fields).bind (schemaSpec a.fields)

/-- The cell stored at slot `i`, field `k` of a compiled array
(`arr[i][k]` as a read). -/
def getField (a : StructArr) (i : Nat) (k : String) : Option Cell :=
  (lookupIdx k a.fields).bind (cellAt a.slots i)

/-- A host whose Unicode normalization always fails (every call raises
`UnicodeError`). -/
def hostNone : Host := ⟨fun _ => none, fun _ => false⟩

/-- A host whose Unicode normalization is the identity with no combining
marks (plain-ASCII behaviour). -/
def hostId : Host := ⟨fun s => some s, fun _ => false⟩

/-- Modelled from the spec's words (for comparison with the source's
`fallbackKeep`): the claimed fallback character set
`{A-Z, a-z, 0-9, space, underscore, period, hyphen}`. -/
def specFallbackKeep (c : Char) : Bool :=
  ('A' ≤ c && c ≤ 'Z') || ('a' ≤ c && c ≤ 'z') || ('0' ≤ c && c ≤ '9') ||
    c == ' ' || c == '_' || c == '.' || c == '-'

/-- Modelled from the spec's words: filtering the string to the claimed
character set. -/
def specFallbackFilter (s : String) : String :=
  String.mk (s.toList.filter specFallbackKeep)

/-- The dtypes on which the `np.isnan` ufunc is defined: the numeric ones.
On string and structured dtypes it raises `TypeError` (the sanitizer's
skip case). -/
def numericDtype : Dtype → Bool
  | .int64 => true
  | .float64 => true
  | .boolChar => true
  | _ => false

/-- Whether the sanitizer's non-finiteness check succeeds on a field of
this dtype entry (scalar or subarray). -/
def isnanDefined : FieldSpec → Bool
  | .scalar ty => numericDtype ty
  | .array ty _ => numericDtype ty

/-- The concrete compiled array of the C2 witness batch. -/
def c2wArr : StructArr := ⟨[("a", .scalar .int64)], [[.int 1]]⟩

/-- The batch of the C5 witness: the second record deliberately lists its
keys in the opposite order. -/
def c5wBatch : List PyVal :=
  [.dict [("a", PyVal.int 1), ("b", PyVal.float (.val 2))],
    .dict [("b", PyVal.float .nan), ("a", PyVal.int 5)]]

/-- The compiled array of the C5 witness batch. -/
def c5wArr : StructArr :=
  ⟨[("a", .scalar .int64), ("b", .scalar .float64)],
    [[.int 1, .float (.val 2)], [.int 5, .float .nan]]⟩

/-- The compiled array used by the C6 witness: one float64 field holding a
NaN. -/
def c6wArr : StructArr := ⟨[("v", .scalar .float64)], [[.float .nan]]⟩

/-- The compiled array used by the C7 witness: a string field (on which the
NaN check raises `TypeError`) followed by a float64 field holding a NaN. -/
def c7wArr : StructArr :=
  ⟨[("s", .scalar .U256), ("v", .scalar .float64)], [[.str "ab", .float .nan]]⟩

/-- The spec's capacity-example batch. -/
def c1wBatch : List PyVal :=
  [.dict [("subject", .str "R001"), ("eegfile", .str "/mnt/x/data/events/R001.mat"),
      ("vals", .list [.int 1, .int 2])],
    .dict [("subject", .str "R001"), ("eegfile", .str "/mnt/x/data/events/R001b.mat"),
      ("vals", .list [.int 1, .int 2, .int 3])]]

/-- The per-record `vals` lists of the capacity-example batch. -/
def c1wLists : List (List PyVal) :=
  [[.int 1, .int 2], [.int 1, .int 2, .int 3]]

/-- The compiled array of the capacity-example batch. -/
def c1wArr : StructArr :=
  ⟨[("subject", .scalar .U256), ("eegfile", .scalar .U256), ("vals", .array .int64 3)],
    [[.str "R001", .str "/mnt/x/data/events/R001.mat", .arr [.int 1, .int 2, .int 0]],
      [.str "R001", .str "/mnt/x/data/events/R001b.mat", .arr [.int 1, .int 2, .int 3]]]⟩

/-- The exact embedding of the example's integer elements into cells. -/
def c1wEmbed : PyVal → Cell
  | .int n => .int n
  | _ => .int 0

/-! ## General inversion lemmas for the `Except` plumbing -/

@[simp]
theorem exc_bind_ok {ε α β : Type} {x : Except ε α} {f : α → Except ε β} {b : β} :
    x >>= f = .ok b ↔ ∃ a, x = .ok a ∧ f a = .ok b := by
  cases x with
  | ok a => exact ⟨fun hh => ⟨a, rfl, hh⟩, fun ⟨a1, ha, hf⟩ => by cases ha; exact hf⟩
  | error e =>
      refine ⟨fun hh => ?_, fun ⟨a1, ha, _⟩ => by cases ha⟩
      exact nomatch hh

@[simp]
theorem exc_map_ok {ε α β : Type} {x : Except ε α} {g : α → β} {b : β} :
    g <$> x = .ok b ↔ ∃ a, x = .ok a ∧ g a = b := by
  cases x with
  | ok a =>
      refine ⟨fun hh => ⟨a, rfl, ?_⟩, fun ⟨a1, ha, hg⟩ => by cases ha; cases hg; rfl⟩
      cases hh
      rfl
  | error e =>
      refine ⟨fun hh => ?_, fun ⟨a1, ha, _⟩ => by cases ha⟩
      exact nomatch hh

@[simp]
theorem exc_pure_ok {ε α : Type} {a b : α} :
    (pure a : Except ε α) = .ok b ↔ a = b := by
  refine ⟨fun hh => ?_, fun hh => by cases hh; rfl⟩
  cases hh
  rfl

theorem exc_error_ne_ok {ε α : Type} {e : ε} {a : α} :
    (Except.error e : Except ε α) ≠ .ok a := fun hh => nomatch hh

/-! ## Lemmas about positional updates -/

theorem listSet_length {α : Type} {l l' : List α} {n : Nat} {a : α}
    (h : listSet l n a = .ok l') : l'.length = l.length := by
  induction l generalizing n l' with
  | nil => exact absurd h (by simp [listSet])
  | cons x t ih =>
      cases n with
      | zero =>
          simp only [listSet, exc_pure_ok] at h
          cases h
          rfl
      | succ m =>
          rcases exc_map_ok.mp h with ⟨t', ht, rfl⟩
          simp [ih ht]

theorem listSet_get {α : Type} {l l' : List α} {n : Nat} {a : α}
    (h : listSet l n a = .ok l') :
    l'[n]? = some a ∧ ∀ m, m ≠ n → l'[m]? = l[m]? := by
  induction l generalizing n l' with
  | nil => exact absurd h (by simp [listSet])
  | cons x t ih =>
      cases n with
      | zero =>
          simp only [listSet, exc_pure_ok] at h
          cases h
          refine ⟨by simp, fun m hm => ?_⟩
          cases m with
          | zero => exact absurd rfl hm
          | succ m2 => simp
      | succ m =>
          rcases exc_map_ok.mp h with ⟨t', ht, rfl⟩
          refine ⟨by simpa using (ih ht).1, fun m2 hm2 => ?_⟩
          cases m2 with
          | zero => simp
          | succ m3 =>
              simp only [List.getElem?_cons_succ]
              exact (ih ht).2 m3 (by omega)

theorem setCell_length {slots out : List Slot} {i idx : Nat} {c : Cell}
    (h : setCell slots i idx c = .ok out) : out.length = slots.length := by
  unfold setCell at h
  split at h
  · exact absurd h (by simp)
  · rcases exc_bind_ok.mp h with ⟨slot1, _, h2⟩
    exact listSet_length h2

theorem setCell_at {slots out : List Slot} {i idx : Nat} {c : Cell}
    (h : setCell slots i idx c = .ok out) :
    cellAt out i idx = some c ∧
      ∀ i2 idx2, i2 ≠ i ∨ idx2 ≠ idx → cellAt out i2 idx2 = cellAt slots i2 idx2 := by
  unfold setCell at h
  split at h
  · exact absurd h (by simp)
  · rename_i slot hslot
    rcases exc_bind_ok.mp h with ⟨slot1, h1, h2⟩
    have hset1 := listSet_get h1
    have hset2 := listSet_get h2
    constructor
    · unfold cellAt
      rw [hset2.1]
      exact hset1.1
    · intro i2 idx2 hne
      unfold cellAt
      rcases hne with hne | hne
      · rw [hset2.2 i2 hne]
      · by_cases hi : i2 = i
        · subst hi
          rw [hset2.1, hslot]
          exact hset1.2 idx2 hne
        · rw [hset2.2 i2 hi]

theorem lookupIdx_spec {k : String} {sch : Schema} {idx : Nat}
    (h : lookupIdx k sch = some idx) :
    ∃ spec, sch[idx]? = some (k, spec) := by
  induction sch generalizing idx with
  | nil => exact absurd h (by simp [lookupIdx])
  | cons kv rest ih =>
      obtain ⟨k1, spec1⟩ := kv
      by_cases hk : k1 = k
      · simp [lookupIdx, hk] at h
        cases h
        exact ⟨spec1, by simp [hk]⟩
      · simp [lookupIdx, hk] at h
        rcases h with ⟨j, hj, rfl⟩
        exact ⟨(ih hj).choose, by simpa using (ih hj).choose_spec⟩

/-! ## The record copier preserves the number of slots -/

theorem writeScalar_length {schema : Schema} {slots out : List Slot} {i : Nat}
    {k : String} {v : PyVal} (h : writeScalar schema slots i k v = .ok out) :
    out.length = slots.length := by
  unfold writeScalar at h
  split at h
  · exact absurd h (by simp)
  · split at h
    · rcases exc_bind_ok.mp h with ⟨c, _, h2⟩
      exact setCell_length h2
    · exact absurd h (by simp)
    · exact absurd h (by simp)

theorem writeArrCell_length {schema : Schema} {slots out : List Slot} {i : Nat}
    {k : String} {cells : List Cell}
    (h : writeArrCell schema slots i k cells = .ok out) :
    out.length = slots.length := by
  unfold writeArrCell at h
  split at h
  · exact absurd h (by simp)
  · split at h
    · exact setCell_length h
    · exact absurd h (by simp)

theorem putColumn_length {slots out : List Slot} {idx : Nat} {col : List Slot}
    (h : putColumn slots idx col = .ok out) : out.length = slots.length := by
  induction slots generalizing col out with
  | nil =>
      cases col with
      | nil => simp only [putColumn, exc_pure_ok] at h; cases h; rfl
      | cons c cr => exact absurd h (by simp [putColumn])
  | cons slot rest ih =>
      cases col with
      | nil => exact absurd h (by simp [putColumn])
      | cons c cr =>
          simp only [putColumn, exc_bind_ok, exc_pure_ok, Except.ok.injEq] at h
          rcases h with ⟨slot1, _, rest1, hr, rfl⟩
          simp [ih hr]

theorem pass1Item_length {cv : Copier} {hh : Host} {schema : Schema}
    {dfKeys : List String} {li : Option LIMap} {i : Nat} {k : String} {v : PyVal}
    {slots out : List Slot}
    (h : pass1Item cv hh schema dfKeys li i k v slots = .ok out) :
    out.length = slots.length := by
  unfold pass1Item at h
  split at h
  · cases h; rfl
  · split at h
    · -- dict case
      split at h
      · exact absurd h (by simp)
      · split at h
        · rcases exc_bind_ok.mp h with ⟨res, _, h2⟩
          split at h2
          · exact setCell_length h2
          · exact absurd h2 (by simp)
        · exact absurd h (by simp)
    · exact writeScalar_length h
    · exact writeScalar_length h

theorem pass1Items_length {cv : Copier} {hh : Host} {schema : Schema}
    {dfKeys : List String} {li : Option LIMap} {i : Nat}
    {items : List (String × PyVal)} {slots out : List Slot}
    (h : pass1Items cv hh schema dfKeys li i items slots = .ok out) :
    out.length = slots.length := by
  induction items generalizing slots out with
  | nil => simp only [pass1Items, exc_pure_ok] at h; cases h; rfl
  | cons kv rest ih =>
      obtain ⟨k, v⟩ := kv
      simp only [pass1Items, exc_bind_ok] at h
      rcases h with ⟨slots1, h1, h2⟩
      exact (ih h2).trans (pass1Item_length h1)

theorem pass1_length {cv : Copier} {hh : Host} {schema : Schema}
    {dfKeys : List String} {li : Option LIMap} {i : Nat}
    {entries : List PyVal} {slots out : List Slot}
    (h : pass1 cv hh schema dfKeys li i entries slots = .ok out) :
    out.length = slots.length := by
  induction entries generalizing i slots out with
  | nil => simp only [pass1, exc_pure_ok] at h; cases h; rfl
  | cons r rest ih =>
      simp only [pass1, exc_bind_ok] at h
      rcases h with ⟨items, _, slots1, h1, h2⟩
      exact (ih h2).trans (pass1Items_length h1)

theorem pass2Item_length {cv : Copier} {fuel : Nat} {schema : Schema}
    {li : Option LIMap} {i : Nat} {k : String} {v : PyVal} {slots out : List Slot}
    (h : pass2Item cv fuel schema li i k v slots = .ok out) :
    out.length = slots.length := by
  unfold pass2Item at h
  split at h
  · cases h; rfl
  · split at h
    · cases h; rfl
    · rcases exc_bind_ok.mp h with ⟨z, _, h1⟩
      rcases exc_bind_ok.mp h1 with ⟨elems, _, h2⟩
      rcases exc_bind_ok.mp h2 with ⟨arr1, _, h3⟩
      exact writeArrCell_length h3

theorem pass2Items_length {cv : Copier} {fuel : Nat} {schema : Schema}
    {li : Option LIMap} {i : Nat} {items : List (String × PyVal)}
    {slots out : List Slot}
    (h : pass2Items cv fuel schema li i items slots = .ok out) :
    out.length = slots.length := by
  induction items generalizing slots out with
  | nil => simp only [pass2Items, exc_pure_ok] at h; cases h; rfl
  | cons kv rest ih =>
      obtain ⟨k, v⟩ := kv
      simp only [pass2Items, exc_bind_ok] at h
      rcases h with ⟨slots1, h1, h2⟩
      exact (ih h2).trans (pass2Item_length h1)

theorem pass2_length {cv : Copier} {fuel : Nat} {schema : Schema}
    {li : Option LIMap} {i : Nat} {entries : List PyVal} {slots out : List Slot}
    (h : pass2 cv fuel schema li i entries slots = .ok out) :
    out.length = slots.length := by
  induction entries generalizing i slots out with
  | nil => simp only [pass2, exc_pure_ok] at h; cases h; rfl
  | cons r rest ih =>
      simp only [pass2, exc_bind_ok] at h
      rcases h with ⟨items, _, slots1, h1, h2⟩
      exact (ih h2).trans (pass2Items_length h1)

theorem pass3Field_length {cv : Copier} {schema : Schema} {k : String}
    {col : List PyVal} {slots out : List Slot}
    (h : pass3Field cv schema k col slots = .ok out) :
    out.length = slots.length := by
  unfold pass3Field at h
  split at h
  · exact absurd h (by simp)
  · split at h
    · rcases exc_bind_ok.mp h with ⟨subCol, _, h1⟩
      rcases exc_bind_ok.mp h1 with ⟨newCol, _, h2⟩
      exact putColumn_length h2
    · exact absurd h (by simp)

theorem pass3Fields_length {cv : Copier} {schema : Schema}
    {dfs : List (String × List PyVal)} {slots out : List Slot}
    (h : pass3Fields cv schema dfs slots = .ok out) :
    out.length = slots.length := by
  induction dfs generalizing slots out with
  | nil => simp only [pass3Fields, exc_pure_ok] at h; cases h; rfl
  | cons kc rest ih =>
      obtain ⟨k, col⟩ := kc
      simp only [pass3Fields, exc_bind_ok] at h
      rcases h with ⟨slots1, h1, h2⟩
      exact (ih h2).trans (pass3Field_length h1)

theorem copy_values_length {hh : Host} {fuel : Nat} {dict_list : List PyVal}
    {schema : Schema} {slots out : List Slot} {li : Option LIMap}
    (h : copy_values hh fuel dict_list schema slots li = .ok out) :
    out.length = slots.length := by
  cases fuel with
  | zero => exact absurd h (by simp [copy_values])
  | succ fuel =>
      cases dict_list with
      | nil => simp only [copy_values, exc_pure_ok] at h; cases h; rfl
      | cons first rest =>
          simp only [copy_values, exc_bind_ok] at h
          rcases h with ⟨firstItems, _, dfs, _, slots1, h1, slots2, h2, h3⟩
          exact ((pass3Fields_length h3).trans (pass2_length h2)).trans (pass1_length h1)

/-! ## Schema-construction lemmas -/

theorem mkDtypes_keys {fuel : Nat} {li : LIMap} {items : List (String × PyVal)}
    {sch : Schema} (h : mkDtypes fuel li items = .ok sch) :
    sch.map Prod.fst = items.map Prod.fst := by
  induction items generalizing sch with
  | nil =>
      simp only [mkDtypes, Except.ok.injEq] at h
      subst h
      rfl
  | cons kv rest ih =>
      obtain ⟨k, v⟩ := kv
      simp only [mkDtypes, exc_bind_ok, Except.ok.injEq] at h
      rcases h with ⟨spec, _, rest1, hrest, rfl⟩
      simp [ih hrest]

theorem updateEntry_nilMap {fuel : Nat} {entry : PyVal} :
    updateEntry fuel entry [] = .ok [] := rfl

theorem computeListInfo_nilMap {fuel : Nat} :
    ∀ entries : List PyVal, computeListInfo fuel entries [] = .ok []
  | [] => rfl
  | e :: rest => by
      simp only [computeListInfo, updateEntry_nilMap, exc_bind_ok]
      exact ⟨[], rfl, computeListInfo_nilMap rest⟩

/-! ## Claim theorems -/

/-- C4: the Type Classifier (`get_element_dtype`) maps every boolean to
`'int64'`, not to the `'b'` dtype of its (unreachable) boolean branch:
in the source, the `isinstance(element, int)` test precedes the boolean
test and Python booleans satisfy it.  The claim says booleans classify as
`Bool` because the boolean rule fires first; the code does the opposite. -/
theorem C4_bool_classifies_as_int64 :
    (∀ fuel : Nat, ∀ b : Bool, get_element_dtype (fuel + 1) (.boolVal b) = .ok .int64) ∧
      Dtype.int64 ≠ Dtype.boolChar :=
  ⟨fun _ _ => rfl, fun hh => Dtype.noConfusion hh⟩

/-- C8: on a string whose Unicode normalization fails, `strip_accents`
falls back to `re.sub(r'[^A-Za-z0-9 -_.]', '', s)`, whose character class
contains the RANGE space–underscore; on `"a!b"` the `'!'` is kept
(`"a!b"`), while filtering to the claimed set
`{A-Z, a-z, 0-9, space, underscore, period, hyphen}` would remove it
(`"ab"`). -/
theorem C8_fallback_keeps_range_punctuation :
    strip_accents hostNone "a!b" = "a!b" ∧ specFallbackFilter "a!b" = "ab" ∧
      ("a!b" : String) ≠ "ab" :=
  ⟨rfl, rfl, by decide⟩

/-- C3 (counterexample): `from_dict` on the empty batch does not return a
zero-length array — it raises an `IndexError` at `d[0].items()`. -/
theorem C3_counterexample :
    from_dict hostNone 5 (.list []) = .error .indexError := rfl

/-- C3 (amended): compiling an empty batch raises: `from_dict` on a
zero-record batch fails with `IndexError` while reading the first record's
keys, before any array is allocated; only the record copier `copy_values`
treats zero records as a no-op, returning the target array unchanged. -/
theorem C3_empty_batch_behaviour :
    (∀ (h : Host) (fuel : Nat), from_dict h fuel (.list []) = .error .indexError) ∧
      (∀ (h : Host) (fuel : Nat) (schema : Schema) (slots : List Slot)
        (li : Option LIMap), copy_values h (fuel + 1) [] schema slots li = .ok slots) :=
  ⟨fun _ _ => rfl, fun _ _ _ _ _ => rfl⟩

/-- C2 (counterexample): the output length does not always equal the input
length: a batch of two empty records compiles to the zero-length
`np.array([])` because the dtype list built from the first record is
empty. -/
theorem C2_counterexample :
    ¬ ∀ (h : Host) (fuel : Nat) (records : List PyVal) (arr : StructArr),
        from_dict h fuel (.list records) = .ok arr →
          arr.slots.length = records.length := by
  intro hall
  have h2 := hall hostNone 1 [.dict [], .dict []] ⟨[], []⟩ rfl
  simp at h2

/-- C2 (amended): when `from_dict` succeeds on a batch whose first record
has at least one field, the compiled array has exactly one slot per input
record; when the first record has no fields the dtype list is empty and the
result is the zero-length array regardless of the batch size. -/
theorem C2_output_length (h : Host) (fuel : Nat) (flds : List (String × PyVal))
    (rest : List PyVal) (arr : StructArr)
    (hok : from_dict h fuel (.list (.dict flds :: rest)) = .ok arr) :
    (flds ≠ [] → arr.slots.length = (PyVal.dict flds :: rest).length) ∧
      (flds = [] → arr.slots.length = 0) := by
  simp only [from_dict, PyVal.items, exc_bind_ok, Except.ok.injEq] at hok
  rcases hok with ⟨fitems, hfit, li, hli, dtypes, hdt, hok⟩
  subst hfit
  split at hok
  · rename_i hempty
    simp only [Except.ok.injEq] at hok
    subst hok
    have hkeys := mkDtypes_keys hdt
    rw [List.isEmpty_iff] at hempty
    subst hempty
    simp only [List.map_nil] at hkeys
    constructor
    · intro hne
      exact absurd (List.map_eq_nil_iff.mp hkeys.symm) hne
    · intro _
      rfl
  · simp only [exc_bind_ok, Except.ok.injEq] at hok
    rcases hok with ⟨z, hz, slots, hcv, rfl⟩
    have hlen := copy_values_length hcv
    simp only [List.length_replicate] at hlen
    refine ⟨fun _ => hlen, fun hnil => ?_⟩
    subst hnil
    simp only [mkDtypes, Except.ok.injEq] at hdt
    subst hdt
    rename_i hempty
    exact absurd rfl hempty

/-- C2 (witness): a one-record batch with one field compiles to a
one-slot array. -/
theorem C2_output_length_witness :
    from_dict hostNone 3 (.list [.dict [("a", PyVal.int 1)]]) = .ok c2wArr ∧
      c2wArr.slots.length = [PyVal.dict [("a", PyVal.int 1)]].length :=
  ⟨rfl, (C2_output_length hostNone 3 [("a", PyVal.int 1)] [] c2wArr rfl).1 (by simp)⟩

/-- C10: with `use_reref_eeg` set, reading events from the JSON source
fails with `NotImplementedError` before any record is read or compiled —
the result is this error for every file content, and no array is
returned. -/
theorem C10_reref_json_fails_before_read (h : Host) (cfg : ReaderConfig)
    (fuel : Nat) (contents : PyVal) (href : cfg.use_reref_eeg = true) :
    read_json h cfg fuel contents = .error .notImplementedError := by
  simp [read_json, check_reader_settings_for_json_read, href, Bind.bind, Except.bind]

/-- C10 (witness): the error at a concrete reref-configured reader and a
concrete file content. -/
theorem C10_reref_json_fails_before_read_witness :
    read_json hostNone ⟨"f.json", "data/events", true, true, true, true⟩ 3
        (.list [.dict [("eegfile", PyVal.str "/x/y.eeg")]]) =
      .error .notImplementedError :=
  C10_reref_json_fails_before_read hostNone _ 3 _ rfl

/-! ## Sanitizer lemmas -/

theorem sanitizeCell_of_ne {rv : ℤ} {c : Cell} (hc : c ≠ .float .nan) :
    sanitizeCell rv c = c := by
  cases c with
  | float x => cases x with
      | nan => exact absurd rfl hc
      | val q => rfl
  | int n => rfl
  | str s => rfl
  | sub cs => rfl
  | arr cs => rfl

theorem sanitizeCell_idem {rv : ℤ} {c : Cell} :
    sanitizeCell rv (sanitizeCell rv c) = sanitizeCell rv c := by
  cases c with
  | float x => cases x with
      | nan => rfl
      | val q => rfl
  | int n => rfl
  | str s => rfl
  | sub cs => rfl
  | arr cs => rfl

theorem sanitizeField_idem {rv : ℤ} {spec : FieldSpec} {c : Cell} :
    sanitizeField rv spec (sanitizeField rv spec c) = sanitizeField rv spec c := by
  cases spec with
  | scalar ty =>
      cases ty with
      | float64 => exact sanitizeCell_idem
      | int64 => rfl
      | S256 => rfl
      | U256 => rfl
      | boolChar => rfl
      | sub fl => rfl
  | array ty cap =>
      cases ty <;> try rfl
      case float64 =>
        cases c <;> simp only [sanitizeField]
        case arr cs => simp [List.map_map, Function.comp, sanitizeCell_idem]

theorem sanitizeField_not_defined {rv : ℤ} {spec : FieldSpec} {c : Cell}
    (hnd : isnanDefined spec = false) : sanitizeField rv spec c = c := by
  cases spec with
  | scalar ty => cases ty <;> first | rfl | exact absurd hnd (by simp [isnanDefined, numericDtype])
  | array ty cap => cases ty <;> first | rfl | exact absurd hnd (by simp [isnanDefined, numericDtype])

theorem sanitizeSlot_getElem {rv : ℤ} {schema : Schema} {slot : Slot}
    {idx : Nat} {kspec : String × FieldSpec} {c : Cell}
    (hs : schema[idx]? = some kspec) (hc : slot[idx]? = some c) :
    (sanitizeSlot rv schema slot)[idx]? = some (sanitizeField rv kspec.2 c) := by
  induction idx generalizing schema slot with
  | zero =>
      cases schema with
      | nil => exact absurd hs (by simp)
      | cons f fr =>
          cases slot with
          | nil => exact absurd hc (by simp)
          | cons c0 cr =>
              obtain ⟨fk, fspec⟩ := f
              simp only [List.getElem?_cons_zero, Option.some.injEq] at hs hc
              subst hs
              subst hc
              simp [sanitizeSlot]
  | succ n ih =>
      cases schema with
      | nil => exact absurd hs (by simp)
      | cons f fr =>
          cases slot with
          | nil => exact absurd hc (by simp)
          | cons c0 cr =>
              obtain ⟨fk, fspec⟩ := f
              simp only [List.getElem?_cons_succ] at hs hc
              simpa [sanitizeSlot] using ih hs hc

theorem sanitizeSlot_getElem_none {rv : ℤ} {schema : Schema} {slot : Slot}
    {idx : Nat} (hc : slot[idx]? = none) :
    (sanitizeSlot rv schema slot)[idx]? = none := by
  induction schema generalizing slot idx with
  | nil =>
      cases slot with
      | nil => simp [sanitizeSlot]
      | cons c cr => simpa [sanitizeSlot] using hc
  | cons f fr ih =>
      cases slot with
      | nil => simp [sanitizeSlot]
      | cons c cr =>
          obtain ⟨fk, fspec⟩ := f
          cases idx with
          | zero => exact absurd hc (by simp)
          | succ n =>
              simp only [List.getElem?_cons_succ] at hc
              simpa [sanitizeSlot] using ih hc

theorem sanitizeSlot_idem {rv : ℤ} {schema : Schema} {slot : Slot} :
    sanitizeSlot rv schema (sanitizeSlot rv schema slot) = sanitizeSlot rv schema slot := by
  induction schema generalizing slot with
  | nil => cases slot <;> rfl
  | cons f fr ih =>
      cases slot with
      | nil => rfl
      | cons c cr =>
          obtain ⟨fk, fspec⟩ := f
          simp only [sanitizeSlot, List.cons.injEq]
          exact ⟨sanitizeField_idem, ih⟩

/-- Field-wise description of one `replace_nans` pass: the field named `k`
of every slot is mapped through the per-dtype sanitization of its dtype
entry. -/
theorem replace_nans_getField (evs : StructArr) (rv : ℤ) (i : Nat) (k : String)
    (spec : FieldSpec) (hspec : fieldSpecOf evs k = some spec) :
    getField (replace_nans evs rv) i k =
      (getField evs i k).map (sanitizeField rv spec) := by
  unfold fieldSpecOf at hspec
  rcases hidx : lookupIdx k evs.fields with _ | idx
  · rw [hidx] at hspec
    exact absurd hspec (by simp)
  · rw [hidx] at hspec
    simp only [Option.some_bind, schemaSpec, Option.map_eq_some'] at hspec
    rcases hspec with ⟨kspec, hks, hspec2⟩
    unfold getField replace_nans
    simp only [hidx, Option.some_bind]
    unfold cellAt
    simp only [List.getElem?_map]
    rcases hslot : evs.slots[i]? with _ | slot
    · rfl
    · simp only [Option.map_some', Option.some_bind]
      rcases hcell : slot[idx]? with _ | c
      · -- the slot is shorter than the schema: both sides read past the end
        simp [sanitizeSlot_getElem_none hcell]
      · rw [sanitizeSlot_getElem hks hcell]
        simp [hspec2]

/-- C6: the Sanitizer with the default sentinel is idempotent: one
`replace_nans` pass turns every NaN cell of a float64 field into `-999`
and leaves every other cell of such a field unchanged, and a second pass
returns the array unchanged. -/
theorem C6_sanitizer_idempotent (evs : StructArr) :
    (∀ (i : Nat) (k : String) (c : Cell),
        fieldSpecOf evs k = some (.scalar .float64) → getField evs i k = some c →
          (c = .float .nan →
            getField (replace_nans evs (-999)) i k = some (.float (.val (-999)))) ∧
          (c ≠ .float .nan → getField (replace_nans evs (-999)) i k = some c)) ∧
      replace_nans (replace_nans evs (-999)) (-999) = replace_nans evs (-999) := by
  constructor
  · intro i k c hspec hget
    have hh := replace_nans_getField evs (-999) i k _ hspec
    rw [hget] at hh
    constructor
    · intro hnan
      subst hnan
      simpa using hh
    · intro hnn
      rw [hh]
      simp only [Option.map_some', Option.some.injEq]
      show sanitizeCell (-999) c = c
      exact sanitizeCell_of_ne hnn
  · unfold replace_nans
    simp only [StructArr.mk.injEq, true_and, List.map_map]
    apply List.map_congr_left
    intro slot _
    exact sanitizeSlot_idem

/-- C6 (witness): on a concrete one-field array holding a NaN, one pass
stores exactly `-999` and a second pass is a no-op. -/
theorem C6_sanitizer_idempotent_witness :
    getField (replace_nans c6wArr (-999)) 0 "v" = some (.float (.val (-999))) ∧
      replace_nans (replace_nans c6wArr (-999)) (-999) = replace_nans c6wArr (-999) :=
  ⟨((C6_sanitizer_idempotent c6wArr).1 0 "v" (.float .nan) rfl rfl).1 rfl,
    (C6_sanitizer_idempotent c6wArr).2⟩

/-- C7: when the non-finiteness check is not defined on a field's dtype
(string or structured — the `TypeError` case), `replace_nans` leaves that
field's cells unchanged in every slot, and it still sanitizes every
float64 field regardless of the other fields' dtypes: the pass recovers
per field and never aborts (it is a total function of the array). -/
theorem C7_sanitizer_skips_and_continues (evs : StructArr) (rv : ℤ) :
    (∀ (i : Nat) (k : String) (spec : FieldSpec),
        fieldSpecOf evs k = some spec → isnanDefined spec = false →
          getField (replace_nans evs rv) i k = getField evs i k) ∧
      (∀ (i : Nat) (k : String) (c : Cell),
        fieldSpecOf evs k = some (.scalar .float64) → getField evs i k = some c →
          getField (replace_nans evs rv) i k = some (sanitizeCell rv c)) := by
  constructor
  · intro i k spec hspec hnd
    rw [replace_nans_getField evs rv i k spec hspec]
    rcases getField evs i k with _ | c
    · rfl
    · simp [sanitizeField_not_defined hnd]
  · intro i k c hspec hget
    rw [replace_nans_getField evs rv i k _ hspec, hget]
    rfl

/-- C7 (witness): the string field is skipped unchanged while the float64
field after it is still sanitized. -/
theorem C7_sanitizer_skips_and_continues_witness :
    getField (replace_nans c7wArr (-999)) 0 "s" = getField c7wArr 0 "s" ∧
      getField (replace_nans c7wArr (-999)) 0 "v" = some (.float (.val (-999))) :=
  ⟨(C7_sanitizer_skips_and_continues c7wArr (-999)).1 0 "s" (.scalar .U256) rfl rfl,
    (C7_sanitizer_skips_and_continues c7wArr (-999)).2 0 "v" (.float .nan) rfl rfl⟩

/-- C5: whenever `from_dict` succeeds on a non-empty batch, the compiled
schema lists the fields in exactly the key insertion order of the batch's
first record (the dtype list is built by walking `d[0].items()`). -/
theorem C5_schema_order (h : Host) (fuel : Nat) (flds : List (String × PyVal))
    (rest : List PyVal) (arr : StructArr)
    (hok : from_dict h fuel (.list (.dict flds :: rest)) = .ok arr) :
    arr.fields.map Prod.fst = flds.map Prod.fst := by
  simp only [from_dict, PyVal.items, exc_bind_ok, Except.ok.injEq] at hok
  rcases hok with ⟨fitems, hfit, li, hli, dtypes, hdt, hok⟩
  subst hfit
  split at hok
  · rename_i hempty
    simp only [Except.ok.injEq] at hok
    subst hok
    have hkeys := mkDtypes_keys hdt
    rw [List.isEmpty_iff] at hempty
    subst hempty
    simpa using hkeys
  · simp only [exc_bind_ok, Except.ok.injEq] at hok
    rcases hok with ⟨z, _, slots, _, rfl⟩
    exact mkDtypes_keys hdt

/-- C5 (witness): the schema order follows the first record (`a`, `b`)
even though the second record inserts `b` before `a`. -/
theorem C5_schema_order_witness :
    from_dict hostNone 5 (.list c5wBatch) = .ok c5wArr ∧
      c5wArr.fields.map Prod.fst = ["a", "b"] := by
  refine ⟨rfl, ?_⟩
  have hh := C5_schema_order hostNone 5
    [("a", PyVal.int 1), ("b", PyVal.float (.val 2))]
    [.dict [("b", PyVal.float .nan), ("a", PyVal.int 5)]] c5wArr rfl
  simpa using hh

/-! ## Lemmas towards the capacity/padding claim -/

theorem castScalar_sub_err {fl : List (String × Dtype)} {e : PyVal} :
    castScalar (.sub fl) e = .error .typeError := by
  cases e <;> rfl

theorem castScalar_dict_err {ty : Dtype} {dfl : List (String × PyVal)} :
    castScalar ty (.dict dfl) = .error .typeError := by
  cases ty <;> rfl

theorem zeroCell_zeroScalar {fz : Nat} {edt : Dtype} {z : Cell}
    (hns : ∀ fl, edt ≠ .sub fl) (h : zeroCell fz edt = .ok z) :
    zeroScalar edt = some z := by
  cases fz with
  | zero => exact absurd h (by simp [zeroCell])
  | succ fz2 =>
      cases edt with
      | sub fl => exact absurd rfl (hns fl)
      | int64 => cases h; rfl
      | float64 => cases h; rfl
      | S256 => cases h; rfl
      | U256 => cases h; rfl
      | boolChar => cases h; rfl

theorem listSet_append {pre suf : List Cell} {c0 c : Cell} :
    listSet (pre ++ c0 :: suf) pre.length c = .ok (pre ++ c :: suf) := by
  induction pre with
  | nil => rfl
  | cons p pr ih => simp [listSet, ih]

theorem fillArr_spec {ty : Dtype} {f : PyVal → Cell} :
    ∀ (xs : List PyVal) (pre suf : List Cell),
      (∀ e ∈ xs, castScalar ty e = .ok (f e)) → xs.length ≤ suf.length →
      fillArr ty pre.length xs (pre ++ suf) =
        .ok (pre ++ (xs.map f ++ suf.drop xs.length))
  | [], pre, suf, _, _ => by simp [fillArr]
  | e :: rest, pre, suf, hcast, hlen => by
      cases suf with
      | nil => exact absurd hlen (by simp)
      | cons c0 suf2 =>
          simp only [fillArr, hcast e (by simp), exc_bind_ok, Except.ok.injEq]
          refine ⟨f e, rfl, ?_⟩
          refine ⟨pre ++ f e :: suf2, listSet_append, ?_⟩
          have hh := fillArr_spec rest (pre ++ [f e]) suf2
            (fun e2 he2 => hcast e2 (by simp [he2])) (by simpa using hlen)
          simp only [List.length_append, List.length_cons, List.length_nil] at hh
          have hpre : pre.length + 1 = pre.length + (0 + 1) := by omega
          rw [show pre.length + 1 = (pre ++ [f e]).length by simp] at *
          simpa [List.append_assoc] using hh

/-- The running maximum only grows. -/
theorem seed_le_foldl_max (xss : List (List PyVal)) (a : Nat) :
    a ≤ xss.foldl (fun m xs => max m xs.length) a := by
  induction xss generalizing a with
  | nil => exact le_refl a
  | cons xs rest ih => exact le_trans (Nat.le_max_left a xs.length) (ih _)

theorem length_le_foldl_max {xss : List (List PyVal)} {xs : List PyVal}
    (hmem : xs ∈ xss) (a : Nat) :
    xs.length ≤ xss.foldl (fun m xs => max m xs.length) a := by
  induction xss generalizing a with
  | nil => exact absurd hmem (by simp)
  | cons x0 rest ih =>
      rcases List.mem_cons.mp hmem with rfl | hmem2
      · exact le_trans (Nat.le_max_right a xs.length) (seed_le_foldl_max rest _)
      · exact ih hmem2 _

/-- One capacity-resolver step on a record whose `k` value is the list
`xs`: the running maximum picks up `xs.length`, and an empty `xs` leaves
the element dtype untouched. -/
theorem updateLInfo_list {fuel : Nat} {entry : PyVal} {k : String}
    {info info1 : LInfo} {xs : List PyVal}
    (hget : entry.getItem k = Except.ok (.list xs))
    (h : updateLInfo fuel entry k info = .ok info1) :
    info1.len = max info.len xs.length ∧ (xs = [] → info1.dtype = info.dtype) := by
  unfold updateLInfo at h
  rw [hget] at h
  simp only [exc_bind_ok] at h
  rcases h with ⟨v, hv, h⟩
  simp only [Except.ok.injEq] at hv
  subst hv
  simp only [PyVal.pyLen, PyVal.pyIter, exc_map_ok, exc_pure_ok] at h
  rcases h with ⟨l, ⟨l2, hl2, hl3⟩, h⟩
  simp only [Except.ok.injEq] at hl2
  subst hl2
  subst hl3
  split at h
  · rename_i hcond
    rcases exc_bind_ok.mp h with ⟨x0, _, h2⟩
    split at h2 <;>
      (rcases exc_bind_ok.mp h2 with ⟨dt, _, h3⟩
       simp only [Except.ok.injEq] at h3
       subst h3
       refine ⟨rfl, fun hnil => ?_⟩
       subst hnil
       simp at hcond)
  · simp only [Except.ok.injEq] at h
    subst h
    exact ⟨rfl, fun _ => rfl⟩

/-- The inner resolver loop keeps every key and updates each entry through
`updateLInfo`. -/
theorem updateEntry_at {fuel : Nat} {entry : PyVal} {li li1 : LIMap} {k : String}
    {info0 : LInfo} (h : updateEntry fuel entry li = .ok li1)
    (h0 : liFind k li = some info0) :
    ∃ info1, updateLInfo fuel entry k info0 = .ok info1 ∧ liFind k li1 = some info1 := by
  induction li generalizing li1 with
  | nil => exact absurd h0 (by simp [liFind])
  | cons kv rest ih =>
      obtain ⟨k0, i0⟩ := kv
      simp only [updateEntry, exc_bind_ok, Except.ok.injEq] at h
      rcases h with ⟨info1, hinfo1, rest1, hrest1, rfl⟩
      by_cases hk : k0 = k
      · subst hk
        simp only [liFind, if_pos, Option.some.injEq] at h0
        subst h0
        exact ⟨info1, hinfo1, by simp [liFind]⟩
      · simp only [liFind, if_neg hk] at h0 ⊢
        exact ih hrest1 h0

/-- Across the whole batch, the resolved length of a list field is the
running maximum of the per-record list lengths, and when every list is
empty the element dtype is never resolved. -/
theorem computeListInfo_at {fuel : Nat} {k : String} :
    ∀ {entries : List PyVal} {xss : List (List PyVal)} {li li' : LIMap}
      {info0 : LInfo},
      computeListInfo fuel entries li = .ok li' →
      List.Forall₂ (fun r xs => r.getItem k = Except.ok (.list xs)) entries xss →
      liFind k li = some info0 →
      ∃ info1, liFind k li' = some info1 ∧
        info1.len = xss.foldl (fun m xs => max m xs.length) info0.len ∧
        ((∀ xs ∈ xss, xs = []) → info1.dtype = info0.dtype) := by
  intro entries xss li li' info0 hcli hF h0
  induction hF generalizing li info0 with
  | nil =>
      simp only [computeListInfo, Except.ok.injEq] at hcli
      subst hcli
      exact ⟨info0, h0, rfl, fun _ => rfl⟩
  | cons hrx hrest ih =>
      rename_i r xs entries2 xss2
      simp only [computeListInfo, exc_bind_ok] at hcli
      rcases hcli with ⟨li1, hli1, hcli2⟩
      rcases updateEntry_at hli1 h0 with ⟨infoA, hupd, hfindA⟩
      rcases updateLInfo_list hrx hupd with ⟨hlenA, hdtA⟩
      rcases ih hcli2 hfindA with ⟨info1, hfind1, hlen1, hdt1⟩
      refine ⟨info1, hfind1, ?_, ?_⟩
      · rw [hlen1, hlenA]
        rfl
      · intro hall
        rw [hdt1 (fun xs2 h2 => hall xs2 (by simp [h2])), hdtA (hall xs (by simp))]

/-- Position-wise description of the dtype list built by `mkDtypes`. -/
theorem mkDtypes_lookup {fuel : Nat} {li : LIMap} :
    ∀ {items : List (String × PyVal)} {sch : Schema} {idx : Nat} {k : String}
      {kspec : FieldSpec},
      mkDtypes fuel li items = .ok sch → sch[idx]? = some (k, kspec) →
      ∃ v, items[idx]? = some (k, v) ∧ specFor fuel li k v = .ok kspec := by
  intro items
  induction items with
  | nil =>
      intro sch idx k kspec h hidx
      simp only [mkDtypes, Except.ok.injEq] at h
      subst h
      exact absurd hidx (by simp)
  | cons kv rest ih =>
      intro sch idx k kspec h hidx
      obtain ⟨k0, v0⟩ := kv
      simp only [mkDtypes, exc_bind_ok, Except.ok.injEq] at h
      rcases h with ⟨spec0, hspec0, rest1, hrest1, rfl⟩
      cases idx with
      | zero =>
          simp only [List.getElem?_cons_zero, Option.some.injEq, Prod.mk.injEq] at hidx
          rcases hidx with ⟨rfl, rfl⟩
          exact ⟨v0, by simp, hspec0⟩
      | succ n =>
          simp only [List.getElem?_cons_succ] at hidx ⊢
          exact ih hrest1 hidx

/-- A dtype-list entry of subarray form comes from a `list_info` entry:
its capacity is the resolved maximum length and its element dtype is the
resolved dtype (float64 when unresolved). -/
theorem specFor_array {fuel : Nat} {li : LIMap} {k : String} {v : PyVal}
    {edt : Dtype} {cap : Nat} (h : specFor fuel li k v = .ok (.array edt cap)) :
    ∃ info, liFind k li = some info ∧ info.dtype.getD .float64 = edt ∧
      info.len = cap := by
  unfold specFor at h
  rcases hli : liFind k li with _ | info
  · rw [hli] at h
    rcases exc_map_ok.mp h with ⟨t, _, habs⟩
    exact absurd habs (by simp)
  · rw [hli] at h
    simp only [Except.ok.injEq, FieldSpec.array.injEq] at h
    exact ⟨info, rfl, h.1, h.2⟩

/-- A key whose first occurrence in the first record holds a list is one of
the `list_names`. -/
theorem mem_list_names {k : String} {flds : List (String × PyVal)} {v : PyVal}
    (hfind : assocFind k flds = some v) (hlist : v.isList = true) :
    k ∈ (flds.filter (fun kv => kv.2.isList)).map Prod.fst := by
  induction flds with
  | nil => exact absurd hfind (by simp [assocFind])
  | cons kv rest ih =>
      obtain ⟨k0, v0⟩ := kv
      by_cases hk : k0 = k
      · subst hk
        simp only [assocFind, if_pos, Option.some.injEq] at hfind
        subst hfind
        simp [List.filter_cons, hlist]
      · simp only [assocFind, if_neg hk] at hfind
        have hsub := ih hfind
        simp only [List.filter_cons]
        split
        · simpa using Or.inr (by simpa using hsub)
        · exact hsub

/-- Looking a member key up in the freshly initialized `list_info` map
yields the default entry. -/
theorem liFind_init {k : String} {names : List String} {d : LInfo}
    (hmem : k ∈ names) :
    liFind k (names.map fun n => (n, d)) = some d := by
  induction names with
  | nil => exact absurd hmem (by simp)
  | cons n rest ih =>
      rcases List.mem_cons.mp hmem with rfl | hmem2
      · simp [liFind]
      · by_cases hn : n = k
        · simp [liFind, hn]
        · simp only [List.map_cons, liFind, if_neg hn]
          exact ih hmem2

/-- Combine the per-record dict/Nodup facts with the per-record list
values into one relation usable by the pass-2 lemmas. -/
theorem forall2_merge {records : List PyVal} {xss : List (List PyVal)} {k : String}
    (hdict : ∀ r ∈ records, ∃ flds, r = PyVal.dict flds ∧ (flds.map Prod.fst).Nodup)
    (hvals : List.Forall₂ (fun r xs => r.getItem k = Except.ok (.list xs)) records xss) :
    List.Forall₂ (fun r xs => ∃ flds, r = PyVal.dict flds ∧
      (flds.map Prod.fst).Nodup ∧ assocFind k flds = some (.list xs)) records xss := by
  induction hvals with
  | nil => exact .nil
  | cons hrx hrest ih =>
      rename_i r xs records2 xss2
      obtain ⟨flds, rfl, hnd⟩ := hdict r (by simp)
      refine .cons ⟨flds, rfl, hnd, ?_⟩ (ih fun r2 h2 => hdict r2 (by simp [h2]))
      simp only [PyVal.getItem] at hrx
      split at hrx
      · rename_i v0 haf
        simp only [Except.ok.injEq] at hrx
        subst hrx
        exact haf
      · exact absurd hrx (by simp)

theorem isDict_true {v : PyVal} (h : v.isDict = true) :
    ∃ dfl, v = .dict dfl := by
  cases v <;> simp_all [PyVal.isDict]

/-- Successful pass-2 steps either skip or store one subarray cell. -/
theorem pass2Item_inv {cv : Copier} {fuel : Nat} {schema : Schema}
    {li : Option LIMap} {i : Nat} {k0 : String} {v : PyVal} {slots out : List Slot}
    (h : pass2Item cv fuel schema li i k0 v slots = .ok out) :
    out = slots ∨ ∃ idx2 cells, lookupIdx k0 schema = some idx2 ∧
      setCell slots i idx2 (.arr cells) = .ok out := by
  unfold pass2Item at h
  split at h
  · simp only [Except.ok.injEq] at h
    exact Or.inl h.symm
  · split at h
    · simp only [Except.ok.injEq] at h
      exact Or.inl h.symm
    · rcases exc_bind_ok.mp h with ⟨z, _, h1⟩
      rcases exc_bind_ok.mp h1 with ⟨elems, _, h2⟩
      rcases exc_bind_ok.mp h2 with ⟨arr1, _, h3⟩
      unfold writeArrCell at h3
      rcases hlk : lookupIdx k0 schema with _ | idx2
      · simp only [hlk] at h3
        exact absurd h3 (by simp)
      · simp only [hlk] at h3
        rcases hsp : schemaSpec schema idx2 with _ | spec
        · simp only [hsp] at h3
          exact absurd h3 (by simp)
        · cases spec with
          | scalar ty =>
              simp only [hsp] at h3
              exact absurd h3 (by simp)
          | array ty cap =>
              simp only [hsp] at h3
              exact Or.inr ⟨idx2, arr1, rfl, h3⟩

theorem pass2Item_preserves {cv : Copier} {fuel : Nat} {schema : Schema}
    {li : Option LIMap} {i : Nat} {k0 : String} {v : PyVal} {slots out : List Slot}
    {idx : Nat} {k : String} {kspec : FieldSpec}
    (hidx : schema[idx]? = some (k, kspec)) (hne : k0 ≠ k)
    (h : pass2Item cv fuel schema li i k0 v slots = .ok out) :
    ∀ i2, cellAt out i2 idx = cellAt slots i2 idx := by
  intro i2
  rcases pass2Item_inv h with rfl | ⟨idx2, cells, hlk, hset⟩
  · rfl
  · have hne2 : idx2 ≠ idx := by
      intro hcontra
      subst hcontra
      rcases lookupIdx_spec hlk with ⟨spec2, hsp2⟩
      rw [hidx] at hsp2
      simp only [Option.some.injEq, Prod.mk.injEq] at hsp2
      exact hne hsp2.1.symm
    exact (setCell_at hset).2 i2 idx (Or.inr (fun hcontra => hne2 hcontra.symm))

theorem pass2Item_preserves_slot {cv : Copier} {fuel : Nat} {schema : Schema}
    {li : Option LIMap} {i : Nat} {k0 : String} {v : PyVal} {slots out : List Slot}
    (h : pass2Item cv fuel schema li i k0 v slots = .ok out) :
    ∀ i2 idx2, i2 ≠ i → cellAt out i2 idx2 = cellAt slots i2 idx2 := by
  intro i2 idx2 hne
  rcases pass2Item_inv h with rfl | ⟨idx3, cells, _, hset⟩
  · rfl
  · exact (setCell_at hset).2 i2 idx2 (Or.inl hne)

theorem pass2Items_preserves {cv : Copier} {fuel : Nat} {schema : Schema}
    {li : Option LIMap} {i : Nat} {idx : Nat} {k : String} {kspec : FieldSpec}
    (hidx : schema[idx]? = some (k, kspec)) :
    ∀ {items : List (String × PyVal)} {slots out : List Slot},
      (∀ kv ∈ items, kv.1 ≠ k) →
      pass2Items cv fuel schema li i items slots = .ok out →
      ∀ i2, cellAt out i2 idx = cellAt slots i2 idx := by
  intro items
  induction items with
  | nil =>
      intro slots out _ h i2
      simp only [pass2Items, Except.ok.injEq] at h
      subst h
      rfl
  | cons kv rest ih =>
      intro slots out hne h i2
      obtain ⟨k0, v0⟩ := kv
      simp only [pass2Items, exc_bind_ok] at h
      rcases h with ⟨slots1, h1, h2⟩
      rw [ih (fun kv2 hm => hne kv2 (by simp [hm])) h2 i2]
      exact pass2Item_preserves hidx (hne (k0, v0) (by simp)) h1 i2

theorem pass2Items_preserves_slot {cv : Copier} {fuel : Nat} {schema : Schema}
    {li : Option LIMap} {i : Nat} :
    ∀ {items : List (String × PyVal)} {slots out : List Slot},
      pass2Items cv fuel schema li i items slots = .ok out →
      ∀ i2 idx2, i2 ≠ i → cellAt out i2 idx2 = cellAt slots i2 idx2 := by
  intro items
  induction items with
  | nil =>
      intro slots out h i2 idx2 _
      simp only [pass2Items, Except.ok.injEq] at h
      subst h
      rfl
  | cons kv rest ih =>
      intro slots out h i2 idx2 hne
      obtain ⟨k0, v0⟩ := kv
      simp only [pass2Items, exc_bind_ok] at h
      rcases h with ⟨slots1, h1, h2⟩
      rw [ih h2 i2 idx2 hne]
      exact pass2Item_preserves_slot h1 i2 idx2 hne

/-- The pass-2 step for the list field `k` itself: the slot's cell becomes
the element-wise copy of the record's list, zero-padded to the resolved
capacity. -/
theorem pass2Item_writes {cv : Copier} {fuel : Nat} {schema : Schema}
    {m : LIMap} {i : Nat} {k : String} {xs : List PyVal} {slots out : List Slot}
    {idx : Nat} {edt : Dtype} {cap : Nat} {info : LInfo} {f : PyVal → Cell}
    (hidx : schema[idx]? = some (k, .array edt cap))
    (hlup : lookupIdx k schema = some idx)
    (hli : liFind k m = some info)
    (hedt : info.dtype.getD .float64 = edt) (hcap : info.len = cap)
    (hcast : ∀ e ∈ xs, castScalar edt e = .ok (f e))
    (hlen : xs.length ≤ cap)
    (h : pass2Item cv fuel schema (some m) i k (.list xs) slots = .ok out) :
    ∃ z, zeroCell fuel edt = .ok z ∧
      cellAt out i idx = some (.arr (xs.map f ++ List.replicate (cap - xs.length) z)) ∧
      ∀ i2 idx2, i2 ≠ i ∨ idx2 ≠ idx → cellAt out i2 idx2 = cellAt slots i2 idx2 := by
  unfold pass2Item at h
  simp only [hli, hedt, hcap] at h
  rcases exc_bind_ok.mp h with ⟨z, hz, h1⟩
  rcases exc_bind_ok.mp h1 with ⟨elems, helems, h2⟩
  simp only [PyVal.pyIter, Except.ok.injEq] at helems
  subst helems
  rcases exc_bind_ok.mp h2 with ⟨arr1, harr1, h3⟩
  refine ⟨z, hz, ?_⟩
  have harr1v : arr1 = xs.map f ++ List.replicate (cap - xs.length) z := by
    cases xs with
    | nil =>
        simp only [pass2Buffer, Except.ok.injEq] at harr1
        subst harr1
        simp
    | cons e0 tl =>
        simp only [pass2Buffer] at harr1
        split at harr1
        · rename_i hd
          rcases isDict_true hd with ⟨dfl, rfl⟩
          have := hcast (.dict dfl) (by simp)
          rw [castScalar_dict_err] at this
          exact absurd this (by simp)
        · have hspec := @fillArr_spec edt f (e0 :: tl) []
            (List.replicate cap z) hcast (by simpa using hlen)
          simp only [List.length_nil, List.nil_append] at hspec
          rw [hspec] at harr1
          simp only [Except.ok.injEq] at harr1
          subst harr1
          rw [List.drop_replicate]
  subst harr1v
  unfold writeArrCell at h3
  have hsp : schemaSpec schema idx = some (.array edt cap) := by
    simp [schemaSpec, hidx]
  simp only [hlup, hsp] at h3
  exact ⟨(setCell_at h3).1, (setCell_at h3).2⟩

/-- The pass-2 item loop of one record: the record's own slot gets its list
field written, the other slots keep their cell at that field. -/
theorem pass2Items_effect {cv : Copier} {fuel : Nat} {schema : Schema}
    {m : LIMap} {i : Nat} {idx : Nat} {k : String} {edt : Dtype} {cap : Nat}
    {info : LInfo} {f : PyVal → Cell}
    (hidx : schema[idx]? = some (k, .array edt cap))
    (hlup : lookupIdx k schema = some idx)
    (hli : liFind k m = some info)
    (hedt : info.dtype.getD .float64 = edt) (hcap : info.len = cap) :
    ∀ {items : List (String × PyVal)} {xs : List PyVal} {slots out : List Slot},
      (items.map Prod.fst).Nodup →
      assocFind k items = some (.list xs) →
      (∀ e ∈ xs, castScalar edt e = .ok (f e)) →
      xs.length ≤ cap →
      pass2Items cv fuel schema (some m) i items slots = .ok out →
      ∃ z, zeroCell fuel edt = .ok z ∧
        cellAt out i idx =
          some (.arr (xs.map f ++ List.replicate (cap - xs.length) z)) ∧
        ∀ i2, i2 ≠ i → cellAt out i2 idx = cellAt slots i2 idx := by
  intro items
  induction items with
  | nil =>
      intro xs slots out _ haf _ _ _
      exact absurd haf (by simp [assocFind])
  | cons kv rest ih =>
      intro xs slots out hnd haf hcast hlen h
      obtain ⟨k0, v0⟩ := kv
      simp only [pass2Items, exc_bind_ok] at h
      rcases h with ⟨slots1, h1, h2⟩
      simp only [List.map_cons, List.nodup_cons] at hnd
      by_cases hk : k0 = k
      · subst hk
        simp only [assocFind, if_pos, Option.some.injEq] at haf
        subst haf
        rcases pass2Item_writes hidx hlup hli hedt hcap hcast hlen h1 with
          ⟨z, hz, hwrite, hpres⟩
        have hrest : ∀ kv2 ∈ rest, kv2.1 ≠ k0 := by
          intro kv2 hm hcontra
          exact hnd.1 (hcontra ▸ List.mem_map_of_mem Prod.fst hm)
        have hkeep := pass2Items_preserves hidx hrest h2
        refine ⟨z, hz, by rw [hkeep i, hwrite], fun i2 hne => ?_⟩
        rw [hkeep i2]
        exact hpres i2 idx (Or.inl hne)
      · simp only [assocFind, if_neg hk] at haf
        rcases ih hnd.2 haf hcast hlen h2 with ⟨z, hz, hwrite, hpres⟩
        refine ⟨z, hz, hwrite, fun i2 hne => ?_⟩
        rw [hpres i2 hne]
        exact pass2Item_preserves hidx hk h1 i2

/-- Records later in the batch do not touch the slots before them. -/
theorem pass2_preserves_lower {cv : Copier} {fuel : Nat} {schema : Schema}
    {li : Option LIMap} :
    ∀ {entries : List PyVal} {i0 : Nat} {slots out : List Slot},
      pass2 cv fuel schema li i0 entries slots = .ok out →
      ∀ i2 idx2, i2 < i0 → cellAt out i2 idx2 = cellAt slots i2 idx2 := by
  intro entries
  induction entries with
  | nil =>
      intro i0 slots out h i2 idx2 _
      simp only [pass2, Except.ok.injEq] at h
      subst h
      rfl
  | cons r rest ih =>
      intro i0 slots out h i2 idx2 hlt
      simp only [pass2, exc_bind_ok] at h
      rcases h with ⟨items, _, slots1, h1, h2⟩
      rw [ih h2 i2 idx2 (by omega)]
      exact pass2Items_preserves_slot h1 i2 idx2 (by omega)

/-- The full pass 2: every record's slot receives exactly its zero-padded
list value for the field `k`. -/
theorem pass2_effect {cv : Copier} {fuel : Nat} {schema : Schema} {m : LIMap}
    {idx : Nat} {k : String} {edt : Dtype} {cap : Nat} {info : LInfo}
    {f : PyVal → Cell}
    (hidx : schema[idx]? = some (k, .array edt cap))
    (hlup : lookupIdx k schema = some idx)
    (hli : liFind k m = some info)
    (hedt : info.dtype.getD .float64 = edt) (hcap : info.len = cap) :
    ∀ {entries : List PyVal} {xss : List (List PyVal)} {i0 : Nat}
      {slots out : List Slot},
      List.Forall₂ (fun r xs => ∃ flds, r = PyVal.dict flds ∧
        (flds.map Prod.fst).Nodup ∧ assocFind k flds = some (.list xs)) entries xss →
      (∀ xs ∈ xss, (∀ e ∈ xs, castScalar edt e = .ok (f e)) ∧ xs.length ≤ cap) →
      pass2 cv fuel schema (some m) i0 entries slots = .ok out →
      ∀ j xs, xss[j]? = some xs →
        ∃ z, zeroCell fuel edt = .ok z ∧
          cellAt out (i0 + j) idx =
            some (.arr (xs.map f ++ List.replicate (cap - xs.length) z)) := by
  intro entries xss i0 slots out hF
  induction hF generalizing i0 slots with
  | nil =>
      intro _ _ j xs hj
      exact absurd hj (by simp)
  | cons hr hrest ih =>
      rename_i r xs0 entries2 xss2
      intro hxs h j xs hj
      obtain ⟨flds, rfl, hnd, haf⟩ := hr
      simp only [pass2, exc_bind_ok] at h
      rcases h with ⟨items, hitems, slots1, h1, h2⟩
      simp only [PyVal.items, Except.ok.injEq] at hitems
      subst hitems
      cases j with
      | zero =>
          simp only [List.getElem?_cons_zero, Option.some.injEq] at hj
          subst hj
          rcases pass2Items_effect hidx hlup hli hedt hcap hnd haf
              (hxs xs0 (by simp)).1 (hxs xs0 (by simp)).2 h1 with ⟨z, hz, hwrite, _⟩
          refine ⟨z, hz, ?_⟩
          rw [Nat.add_zero, pass2_preserves_lower h2 i0 idx (by omega), hwrite]
      | succ j2 =>
          simp only [List.getElem?_cons_succ] at hj
          have hh := ih (fun xs2 hm => hxs xs2 (by simp [hm])) h2 j2 xs hj
          rw [show i0 + (j2 + 1) = (i0 + 1) + j2 by omega]
          exact hh

theorem putColumn_get {slots out : List Slot} {idxp : Nat} {col : List Slot}
    (h : putColumn slots idxp col = .ok out) :
    ∀ i2 idx2, idx2 ≠ idxp → cellAt out i2 idx2 = cellAt slots i2 idx2 := by
  induction slots generalizing col out with
  | nil =>
      cases col with
      | nil =>
          simp only [putColumn, Except.ok.injEq] at h
          subst h
          intro _ _ _
          rfl
      | cons c cr => exact absurd h (by simp [putColumn])
  | cons slot rest ih =>
      cases col with
      | nil => exact absurd h (by simp [putColumn])
      | cons c cr =>
          simp only [putColumn, exc_bind_ok, Except.ok.injEq] at h
          rcases h with ⟨slot1, hs1, rest1, hr1, rfl⟩
          intro i2 idx2 hne
          cases i2 with
          | zero =>
              unfold cellAt
              simp only [List.getElem?_cons_zero, Option.some_bind]
              exact (listSet_get hs1).2 idx2 hne
          | succ n =>
              unfold cellAt
              simp only [List.getElem?_cons_succ]
              exact ih hr1 n idx2 hne

/-- Pass 3 writes only into sub-record fields, so a subarray field's cells
survive it unchanged. -/
theorem pass3Field_preserves_array {cv : Copier} {schema : Schema} {k0 : String}
    {col : List PyVal} {slots out : List Slot} {idx : Nat} {edt : Dtype} {cap : Nat}
    (hspec : schemaSpec schema idx = some (.array edt cap))
    (h : pass3Field cv schema k0 col slots = .ok out) :
    ∀ i2, cellAt out i2 idx = cellAt slots i2 idx := by
  unfold pass3Field at h
  rcases hlk : lookupIdx k0 schema with _ | idx2
  · simp only [hlk] at h
    exact absurd h (by simp)
  · simp only [hlk] at h
    split at h
    · rename_i sf hsp2
      rcases exc_bind_ok.mp h with ⟨subCol, _, h1⟩
      rcases exc_bind_ok.mp h1 with ⟨newCol, _, h2⟩
      intro i2
      refine putColumn_get h2 i2 idx (fun hcontra => ?_)
      subst hcontra
      rw [hspec] at hsp2
      exact FieldSpec.noConfusion (Option.some.inj hsp2)
    · exact absurd h (by simp)

theorem pass3Fields_preserves_array {cv : Copier} {schema : Schema}
    {idx : Nat} {edt : Dtype} {cap : Nat}
    (hspec : schemaSpec schema idx = some (.array edt cap)) :
    ∀ {dfs : List (String × List PyVal)} {slots out : List Slot},
      pass3Fields cv schema dfs slots = .ok out →
      ∀ i2, cellAt out i2 idx = cellAt slots i2 idx := by
  intro dfs
  induction dfs with
  | nil =>
      intro slots out h i2
      simp only [pass3Fields, Except.ok.injEq] at h
      subst h
      rfl
  | cons kc rest ih =>
      intro slots out h i2
      obtain ⟨k0, col⟩ := kc
      simp only [pass3Fields, exc_bind_ok] at h
      rcases h with ⟨slots1, h1, h2⟩
      rw [ih h2 i2]
      exact pass3Field_preserves_array hspec h1 i2

/-- The freshly initialized `list_info` map has the default entry for a key
whose first-record value is a list. -/
theorem liFind_init_of_assoc {k : String} {flds : List (String × PyVal)}
    {v : PyVal} {d : LInfo} (hfind : assocFind k flds = some v)
    (hlist : v.isList = true) :
    liFind k (((flds.filter (fun kv => kv.2.isList)).map (fun x => x.1)).map
      (fun n => (n, d))) = some d := by
  apply liFind_init
  exact mem_list_names hfind hlist

/-- C1: for a compiled batch, every field resolved as a fixed-capacity
subarray has capacity equal to the batch-wide maximum list length, and
every slot stores exactly `capacity` elements: the source list's elements
in order (stored through the element dtype's assignment, `f`), then zeros.
The batch is assumed well-formed as Python guarantees it (records are
dicts with unique keys) and element-homogeneous (each element is stored
exactly, which the design assumes and never verifies). -/
theorem C1_array_capacity_and_padding
    (h : Host) (fuel : Nat) (records : List PyVal) (xss : List (List PyVal))
    (arr : StructArr) (k : String) (edt : Dtype) (cap : Nat) (f : PyVal → Cell)
    (hok : from_dict h fuel (.list records) = .ok arr)
    (hspec : fieldSpecOf arr k = some (.array edt cap))
    (hdict : ∀ r ∈ records, ∃ flds, r = PyVal.dict flds ∧ (flds.map Prod.fst).Nodup)
    (hvals : List.Forall₂ (fun r xs => r.getItem k = Except.ok (.list xs)) records xss)
    (hcast : ∀ xs ∈ xss, ∀ e ∈ xs, castScalar edt e = .ok (f e)) :
    cap = xss.foldl (fun m xs => max m xs.length) 0 ∧
      ∃ z, zeroScalar edt = some z ∧
        ∀ i xs, xss[i]? = some xs →
          xs.length ≤ cap ∧
          getField arr i k =
            some (.arr (xs.map f ++ List.replicate (cap - xs.length) z)) ∧
          (xs.map f ++ List.replicate (cap - xs.length) z).length = cap := by
  -- unfold the compilation pipeline
  rcases records with _ | ⟨first, rest⟩
  · simp [from_dict] at hok
  obtain ⟨flds, rfl, hndf⟩ := hdict _ (List.mem_cons_self _ _)
  have hrecs := forall2_merge hdict hvals
  simp only [from_dict, PyVal.items, exc_bind_ok, Except.ok.injEq] at hok
  rcases hok with ⟨fitems, hfit, li, hli, dtypes, hdt, hok⟩
  subst hfit
  split at hok
  · -- an empty dtype list contradicts the resolved array field
    simp only [Except.ok.injEq] at hok
    subst hok
    simp [fieldSpecOf, lookupIdx] at hspec
  · simp only [exc_bind_ok, Except.ok.injEq] at hok
    rcases hok with ⟨z0, hz0, slots, hcv, rfl⟩
    -- the schema position of the array field
    rcases hlup : lookupIdx k dtypes with _ | idx
    · unfold fieldSpecOf at hspec
      rw [show (StructArr.mk dtypes slots).fields = dtypes from rfl, hlup] at hspec
      exact absurd hspec (by simp)
    · have hsp2 : schemaSpec dtypes idx = some (.array edt cap) := by
        unfold fieldSpecOf at hspec
        rw [show (StructArr.mk dtypes slots).fields = dtypes from rfl, hlup] at hspec
        simpa using hspec
      rcases lookupIdx_spec hlup with ⟨spec0, hidx0⟩
      have hspec0 : spec0 = .array edt cap := by
        unfold schemaSpec at hsp2
        rw [hidx0] at hsp2
        simpa using hsp2
      subst hspec0
      -- the list_info entry behind the array dtype
      rcases mkDtypes_lookup hdt hidx0 with ⟨v0, _, hspecfor⟩
      rcases specFor_array hspecfor with ⟨info, hliFind, hedt, hcap⟩
      -- the initial list_info entry for k
      cases hrecs with
      | cons hr0 hrest0 =>
        rename_i xs0 xss2
        obtain ⟨flds2, heq2, _, haf0⟩ := hr0
        have hfe : flds = flds2 := by injection heq2
        subst hfe
        have hinit := liFind_init_of_assoc (d := (⟨0, none⟩ : LInfo)) haf0 rfl
        -- resolved length = running maximum over the batch
        rcases computeListInfo_at hli hvals hinit with ⟨info1, hfind1, hlen1, hdt1⟩
        have hinfo1 : info1 = info := by
          rw [hliFind] at hfind1
          exact (Option.some.inj hfind1).symm
        subst hinfo1
        have hcapfold : cap = (xs0 :: xss2).foldl (fun m xs => max m xs.length) 0 := by
          rw [← hcap, hlen1]
        refine ⟨hcapfold, ?_⟩
        have hlen_all : ∀ xs ∈ xs0 :: xss2, xs.length ≤ cap := by
          intro xs hm
          rw [hcapfold]
          exact length_le_foldl_max hm 0
        -- the element dtype is not structured
        have hns : ∀ fl, edt ≠ .sub fl := by
          by_cases hall : ∀ xs ∈ xs0 :: xss2, xs = []
          · have hdtnone := hdt1 hall
            rw [hdtnone] at hedt
            intro fl hcontra
            rw [hcontra] at hedt
            exact Dtype.noConfusion hedt
          · push_neg at hall
            rcases hall with ⟨xs1, hm1, hne1⟩
            rcases xs1 with _ | ⟨e1, tl1⟩
            · exact absurd rfl hne1
            · intro fl hcontra
              have hc := hcast _ hm1 e1 (by simp)
              rw [hcontra, castScalar_sub_err] at hc
              exact Except.noConfusion hc
        -- invert the copier into its three passes
        cases fuel with
        | zero => simp [copy_values] at hcv
        | succ fl =>
          simp only [copy_values, PyVal.items, exc_bind_ok] at hcv
          rcases hcv with ⟨fitems2, hfit2, dfs, hdfs, slots1, hp1, slots2, hp2, hp3⟩
          simp only [Except.ok.injEq] at hfit2
          subst hfit2
          have heffect := pass2_effect hidx0 hlup hliFind hedt hcap
            (forall2_merge hdict hvals)
            (fun xs hm => ⟨hcast xs hm, hlen_all xs hm⟩) hp2
          rcases heffect 0 xs0 (by simp) with ⟨z, hz, _⟩
          refine ⟨z, zeroCell_zeroScalar hns hz, ?_⟩
          intro i xs hi
          have hle := hlen_all xs (List.mem_iff_getElem?.mpr ⟨i, hi⟩)
          rcases heffect i xs hi with ⟨z2, hz2, hcell⟩
          rw [hz] at hz2
          have hzz := Except.ok.inj hz2
          subst hzz
          have hpres := pass3Fields_preserves_array hsp2 hp3 i
          refine ⟨hle, ?_, ?_⟩
          · unfold getField
            rw [show (StructArr.mk dtypes slots).fields = dtypes from rfl, hlup]
            rw [Option.some_bind]
            rw [show (StructArr.mk dtypes slots).slots = slots from rfl]
            rw [hpres]
            rw [Nat.zero_add] at hcell
            exact hcell
          · simp only [List.length_append, List.length_map, List.length_replicate]
            omega

/-- C1 (witness): on the spec's capacity example the resolved capacity for
`vals` is 3, and slot 0 stores `[1, 2, 0]`. -/
theorem C1_array_capacity_and_padding_witness :
    (3 : Nat) = c1wLists.foldl (fun m xs => max m xs.length) 0 ∧
      ∃ z, zeroScalar .int64 = some z ∧
        ∀ i xs, c1wLists[i]? = some xs →
          xs.length ≤ 3 ∧
          getField c1wArr i "vals" =
            some (.arr (xs.map c1wEmbed ++ List.replicate (3 - xs.length) z)) ∧
          (xs.map c1wEmbed ++ List.replicate (3 - xs.length) z).length = 3 :=
  C1_array_capacity_and_padding hostId 20 c1wBatch c1wLists c1wArr "vals"
    .int64 3 c1wEmbed rfl rfl
    (by
      intro r hr
      rcases List.mem_cons.mp hr with rfl | hr2
      · exact ⟨_, rfl, by decide⟩
      · rcases List.mem_cons.mp hr2 with rfl | hr3
        · exact ⟨_, rfl, by decide⟩
        · exact absurd hr3 (by simp))
    (.cons rfl (.cons rfl .nil))
    (by
      intro xs hxs e he
      rcases List.mem_cons.mp hxs with rfl | hxs2
      · rcases List.mem_cons.mp he with rfl | he2
        · rfl
        · rcases List.mem_cons.mp he2 with rfl | he3
          · rfl
          · exact absurd he3 (by simp)
      · rcases List.mem_cons.mp hxs2 with rfl | hxs3
        · rcases List.mem_cons.mp he with rfl | he2
          · rfl
          · rcases List.mem_cons.mp he2 with rfl | he3
            · rfl
            · rcases List.mem_cons.mp he3 with rfl | he4
              · rfl
              · exact absurd he4 (by simp)
        · exact absurd hxs3 (by simp))

end Ptsa
